import Mathlib

/-!
Verification of the btx chain core (`src/`): binary serializers (`iobuf.rs`,
`block.rs`, `index.rs`, `store.rs`), compact-target arithmetic (`hasher.rs`),
the coin maturity predicate, the mempool (`TxPool`), and the indexer
(`BlkIndexer::link` / `pop`) with its key-value batch machinery
(`leveldb.rs`).

Modelling conventions:
* machine integers are `Nat` (unsigned) or `Int` (signed) with explicit
  `% 2^w` wherever Rust wrapping semantics matter;
* a 32-byte `Hasher` is its little-endian big-integer value, a `Nat < 2^256`
  (this matches `impl From<&Hasher> for BigUint` in `hasher.rs`);
* byte strings are `List Nat`;
* fallible operations return `Option`;
* the hash primitive (double SHA-256), account codecs and signature
  verification are out-of-scope primitives (spec §1) and enter the model as
  parameters of an `Env` structure.
-/

namespace Btx

abbrev Bytes := List Nat

/-! ## Little-endian integer codecs (`iobuf.rs` `Writer`/`Reader`) -/

/-- Little-endian byte encoding of `v` on `n` bytes
(`Writer::u8/u16/u32/u64`, the `put_*_le` family). -/
def toLE : Nat → Nat → Bytes
  | 0, _ => []
  | n + 1, v => v % 256 :: toLE n (v / 256)

/-- Value of a little-endian byte list (`Reader` `get_*_le` family). -/
def fromLE : Bytes → Nat
  | [] => 0
  | b :: bs => b + 256 * fromLE bs

/-- Read `n` little-endian bytes from the stream, returning the value and the
rest (`Reader::check` then `get_uXX_le`). -/
def readLE (n : Nat) (bs : Bytes) : Option (Nat × Bytes) :=
  if n ≤ bs.length then some (fromLE (bs.take n), bs.drop n) else none

/-- Two's-complement `i64` encoding (`Writer::i64`, `put_i64_le`). -/
def encI64 (v : Int) : Bytes := toLE 8 ((v % (2 ^ 64 : Int)).toNat)

/-- `Reader::i64` (`get_i64_le`): read 8 bytes, interpret as two's complement. -/
def readI64 (bs : Bytes) : Option (Int × Bytes) :=
  match readLE 8 bs with
  | none => none
  | some (n, r) => some (if n < 2 ^ 63 then (n : Int) else (n : Int) - 2 ^ 64, r)

/-- Read exactly `n` raw bytes (`Reader::get_bytes`). -/
def readBytes (n : Nat) (bs : Bytes) : Option (Bytes × Bytes) :=
  if n ≤ bs.length then some (bs.take n, bs.drop n) else none

/-- `Writer::usize`: dynamic length prefix, 1 byte for `0..=0x7F`, else two
bytes with the high bit of the first set (supports up to `0x7FFF`; beyond
that the source asserts). -/
def usizeEnc (n : Nat) : Bytes :=
  if n ≤ 0x7F then [n] else [n / 256 + 0x80, n % 256]

/-- `Reader::usize`. -/
def readUsize (bs : Bytes) : Option (Nat × Bytes) :=
  match bs with
  | [] => none
  | b :: r =>
    if b % 256 < 0x80 then some (b, r)
    else
      match r with
      | [] => none
      | b2 :: r2 => some ((b % 128) * 256 + b2, r2)

theorem toLE_length (n v : Nat) : (toLE n v).length = n := by
  induction n generalizing v with
  | zero => rfl
  | succ n ih => simp [toLE, ih]

theorem fromLE_toLE (n v : Nat) : fromLE (toLE n v) = v % 256 ^ n := by
  induction n generalizing v with
  | zero => simp [toLE, fromLE, Nat.mod_one]
  | succ n ih =>
    simp only [toLE, fromLE, ih]
    rw [pow_succ']
    exact Nat.mod_mul.symm

theorem readLE_toLE (n v : Nat) (r : Bytes) :
    readLE n (toLE n v ++ r) = some (v % 256 ^ n, r) := by
  unfold readLE
  rw [if_pos (by simp [toLE_length]),
    List.take_left' (toLE_length n v), List.drop_left' (toLE_length n v),
    fromLE_toLE]

theorem readLE_toLE_of_lt (n v : Nat) (r : Bytes) (h : v < 256 ^ n) :
    readLE n (toLE n v ++ r) = some (v, r) := by
  rw [readLE_toLE, Nat.mod_eq_of_lt h]

theorem readI64_encI64 (v : Int) (r : Bytes)
    (h1 : -(2 ^ 63) ≤ v) (h2 : v < 2 ^ 63) :
    readI64 (encI64 v ++ r) = some (v, r) := by
  unfold readI64 encI64
  have hlt : (v % (2 ^ 64 : Int)).toNat < 2 ^ 64 := by
    have := Int.emod_nonneg v (show (2 ^ 64 : Int) ≠ 0 by norm_num)
    have := Int.emod_lt_of_pos v (show (0 : Int) < 2 ^ 64 by norm_num)
    omega
  rw [show (2 : Nat) ^ 64 = 256 ^ 8 by norm_num] at hlt
  rw [readLE_toLE_of_lt _ _ _ hlt]
  simp only [Option.some.injEq, Prod.mk.injEq]
  refine ⟨?_, trivial⟩
  split <;> omega

theorem readBytes_append (b r : Bytes) :
    readBytes b.length (b ++ r) = some (b, r) := by
  unfold readBytes
  rw [if_pos (by simp)]
  simp

theorem readUsize_usizeEnc (n : Nat) (r : Bytes) (h : n ≤ 0x7FFF) :
    readUsize (usizeEnc n ++ r) = some (n, r) := by
  unfold usizeEnc readUsize
  by_cases hn : n ≤ 0x7F
  · rw [if_pos hn]
    simp only [List.cons_append, List.nil_append]
    rw [if_pos (by omega)]
  · rw [if_neg hn]
    simp only [List.cons_append, List.nil_append]
    rw [if_neg (by omega)]
    simp only [Option.some.injEq, Prod.mk.injEq]
    refine ⟨?_, trivial⟩
    omega

/-! ## Data model (`block.rs`, `index.rs`, `store.rs`, `hasher.rs`)

A `Hasher` is modelled by its little-endian integer value (`Nat`), a
`Script` by its writer byte content. -/

abbrev Hasher := Nat

/-- `Hasher::encode`: the 32 raw bytes (little-endian integer value). -/
def encHasher (h : Hasher) : Bytes := toLE 32 h

/-- `Hasher::decode`: read 32 bytes. -/
def readHasher (bs : Bytes) : Option (Hasher × Bytes) := readLE 32 bs

abbrev Script := Bytes

/-- `impl Serializer for Script`: `Writer::put` = usize length prefix then
raw bytes. -/
def encScript (s : Script) : Bytes := usizeEnc s.length ++ s

/-- `Script::decode` via `Reader::get`. -/
def readScript (bs : Bytes) : Option (Script × Bytes) :=
  match readUsize bs with
  | none => none
  | some (n, r) => readBytes n r

/-- `TxIn` (`block.rs`). -/
structure TxIn where
  out : Hasher
  idx : Nat
  script : Script
  seq : Nat
  deriving DecidableEq, Repr

/-- `TxOut` (`block.rs`). -/
structure TxOut where
  value : Int
  script : Script
  deriving DecidableEq, Repr

/-- `Tx` (`block.rs`). -/
structure Tx where
  ver : Nat
  ins : List TxIn
  outs : List TxOut
  deriving DecidableEq, Repr

/-- `Header` (`block.rs`). -/
structure Header where
  ver : Nat
  prev : Hasher
  merkle : Hasher
  time : Nat
  bits : Nat
  nonce : Nat
  deriving DecidableEq, Repr

/-- `Block` (`block.rs`); only the serialized fields — `hhv`, `blk`, `rev`
and `finish` are runtime-only and excluded from `PartialEq`. -/
structure Block where
  header : Header
  txs : List Tx
  deriving DecidableEq, Repr

/-- `Attr` (`store.rs`): location of a record in a segmented store. -/
structure Attr where
  idx : Nat
  off : Nat
  len : Nat
  deriving DecidableEq, Repr

/-- `Attr::default()`: all fields `u32::MAX`. -/
def Attr.default : Attr := ⟨0xFFFFFFFF, 0xFFFFFFFF, 0xFFFFFFFF⟩

/-- `BlkAttr` (`block.rs`). -/
structure BlkAttr where
  bhv : Header
  hhv : Nat
  blk : Attr
  rev : Attr
  deriving DecidableEq, Repr

/-- `TxAttr` (`block.rs`). -/
structure TxAttr where
  blk : Hasher
  idx : Nat
  deriving DecidableEq, Repr

/-- `Best` (`block.rs`). -/
structure Best where
  id : Hasher
  height : Nat
  deriving DecidableEq, Repr

/-- `Best::next`. -/
def Best.next (b : Best) : Nat := b.height + 1

/-- `CoinAttr` (`index.rs`): the UTXO record.  `cpk`, `tx`, `idx` live in
the storage key; `value`, `flags`, `height` in the stored value. -/
structure CoinAttr where
  cpk : Hasher
  tx : Hasher
  idx : Nat
  value : Int
  flags : Nat
  height : Nat
  deriving DecidableEq, Repr

def CoinAttr.default : CoinAttr := ⟨0, 0, 0, 0, 0, 0⟩

/-! ## Encoders (`impl Serializer for ...`) -/

def encTxIn (i : TxIn) : Bytes :=
  encHasher i.out ++ toLE 2 i.idx ++ encScript i.script ++ toLE 4 i.seq

def encTxOut (o : TxOut) : Bytes :=
  encI64 o.value ++ encScript o.script

/-- `Tx::encode`: counts written as `u16` (`len() as u16` truncates). -/
def encTx (t : Tx) : Bytes :=
  toLE 4 t.ver ++ toLE 2 t.ins.length ++ (t.ins.map encTxIn).flatten
    ++ toLE 2 t.outs.length ++ (t.outs.map encTxOut).flatten

def encHeader (h : Header) : Bytes :=
  toLE 4 h.ver ++ encHasher h.prev ++ encHasher h.merkle
    ++ toLE 4 h.time ++ toLE 4 h.bits ++ toLE 4 h.nonce

def encBlock (b : Block) : Bytes :=
  encHeader b.header ++ toLE 2 b.txs.length ++ (b.txs.map encTx).flatten

def encAttr (a : Attr) : Bytes := toLE 4 a.idx ++ toLE 4 a.off ++ toLE 4 a.len

def encBlkAttr (a : BlkAttr) : Bytes :=
  encHeader a.bhv ++ toLE 4 a.hhv ++ encAttr a.blk ++ encAttr a.rev

def encTxAttr (a : TxAttr) : Bytes := encHasher a.blk ++ toLE 2 a.idx

def encBest (b : Best) : Bytes := encHasher b.id ++ toLE 4 b.height

/-- `CoinAttr::encode`: only `value`, `flags`, `height` are serialized. -/
def encCoinAttr (c : CoinAttr) : Bytes :=
  encI64 c.value ++ toLE 1 c.flags ++ toLE 4 c.height

/-! ## Decoders -/

def readTxIn (bs : Bytes) : Option (TxIn × Bytes) :=
  match readHasher bs with
  | none => none
  | some (out, r1) =>
    match readLE 2 r1 with
    | none => none
    | some (idx, r2) =>
      match readScript r2 with
      | none => none
      | some (script, r3) =>
        match readLE 4 r3 with
        | none => none
        | some (seq, r4) => some (⟨out, idx, script, seq⟩, r4)

def readTxOut (bs : Bytes) : Option (TxOut × Bytes) :=
  match readI64 bs with
  | none => none
  | some (value, r1) =>
    match readScript r1 with
    | none => none
    | some (script, r2) => some (⟨value, script⟩, r2)

/-- Decode `n` consecutive values (the `for _ in 0..r.u16()?` loops). -/
def readList (dec : Bytes → Option (α × Bytes)) : Nat → Bytes → Option (List α × Bytes)
  | 0, bs => some ([], bs)
  | n + 1, bs =>
    match dec bs with
    | none => none
    | some (a, r) =>
      match readList dec n r with
      | none => none
      | some (as_, r2) => some (a :: as_, r2)

def readTx (bs : Bytes) : Option (Tx × Bytes) :=
  match readLE 4 bs with
  | none => none
  | some (ver, r1) =>
    match readLE 2 r1 with
    | none => none
    | some (n, r2) =>
      match readList readTxIn n r2 with
      | none => none
      | some (ins, r3) =>
        match readLE 2 r3 with
        | none => none
        | some (m, r4) =>
          match readList readTxOut m r4 with
          | none => none
          | some (outs, r5) => some (⟨ver, ins, outs⟩, r5)

def readHeader (bs : Bytes) : Option (Header × Bytes) :=
  match readLE 4 bs with
  | none => none
  | some (ver, r1) =>
    match readHasher r1 with
    | none => none
    | some (prev, r2) =>
      match readHasher r2 with
      | none => none
      | some (merkle, r3) =>
        match readLE 4 r3 with
        | none => none
        | some (time, r4) =>
          match readLE 4 r4 with
          | none => none
          | some (bits, r5) =>
            match readLE 4 r5 with
            | none => none
            | some (nonce, r6) => some (⟨ver, prev, merkle, time, bits, nonce⟩, r6)

def readBlock (bs : Bytes) : Option (Block × Bytes) :=
  match readHeader bs with
  | none => none
  | some (h, r1) =>
    match readLE 2 r1 with
    | none => none
    | some (n, r2) =>
      match readList readTx n r2 with
      | none => none
      | some (txs, r3) => some (⟨h, txs⟩, r3)

def readAttr (bs : Bytes) : Option (Attr × Bytes) :=
  match readLE 4 bs with
  | none => none
  | some (idx, r1) =>
    match readLE 4 r1 with
    | none => none
    | some (off, r2) =>
      match readLE 4 r2 with
      | none => none
      | some (len, r3) => some (⟨idx, off, len⟩, r3)

def readBlkAttr (bs : Bytes) : Option (BlkAttr × Bytes) :=
  match readHeader bs with
  | none => none
  | some (bhv, r1) =>
    match readLE 4 r1 with
    | none => none
    | some (hhv, r2) =>
      match readAttr r2 with
      | none => none
      | some (blk, r3) =>
        match readAttr r3 with
        | none => none
        | some (rev, r4) => some (⟨bhv, hhv, blk, rev⟩, r4)

def readTxAttr (bs : Bytes) : Option (TxAttr × Bytes) :=
  match readHasher bs with
  | none => none
  | some (blk, r1) =>
    match readLE 2 r1 with
    | none => none
    | some (idx, r2) => some (⟨blk, idx⟩, r2)

def readBest (bs : Bytes) : Option (Best × Bytes) :=
  match readHasher bs with
  | none => none
  | some (id, r1) =>
    match readLE 4 r1 with
    | none => none
    | some (height, r2) => some (⟨id, height⟩, r2)

/-- `CoinAttr::decode`: the key fields `cpk`/`tx`/`idx` stay at their
defaults (they are filled from the storage key by `fill_key`). -/
def readCoinAttr (bs : Bytes) : Option (CoinAttr × Bytes) :=
  match readI64 bs with
  | none => none
  | some (value, r1) =>
    match readLE 1 r1 with
    | none => none
    | some (flags, r2) =>
      match readLE 4 r2 with
      | none => none
      | some (height, r3) =>
        some ({ CoinAttr.default with value := value, flags := flags, height := height }, r3)

/-! ## Well-formedness bounds for the round trip -/

def ScriptWF (s : Script) : Prop := s.length ≤ 0x7FFF

def TxInWF (i : TxIn) : Prop :=
  i.out < 2 ^ 256 ∧ i.idx < 2 ^ 16 ∧ ScriptWF i.script ∧ i.seq < 2 ^ 32

def TxOutWF (o : TxOut) : Prop :=
  -(2 ^ 63) ≤ o.value ∧ o.value < 2 ^ 63 ∧ ScriptWF o.script

def TxWF (t : Tx) : Prop :=
  t.ver < 2 ^ 32 ∧ t.ins.length < 2 ^ 16 ∧ t.outs.length < 2 ^ 16
    ∧ (∀ i ∈ t.ins, TxInWF i) ∧ (∀ o ∈ t.outs, TxOutWF o)

def HeaderWF (h : Header) : Prop :=
  h.ver < 2 ^ 32 ∧ h.prev < 2 ^ 256 ∧ h.merkle < 2 ^ 256
    ∧ h.time < 2 ^ 32 ∧ h.bits < 2 ^ 32 ∧ h.nonce < 2 ^ 32

def BlockWF (b : Block) : Prop :=
  HeaderWF b.header ∧ b.txs.length < 2 ^ 16 ∧ ∀ t ∈ b.txs, TxWF t

def AttrWF (a : Attr) : Prop := a.idx < 2 ^ 32 ∧ a.off < 2 ^ 32 ∧ a.len < 2 ^ 32

def BlkAttrWF (a : BlkAttr) : Prop :=
  HeaderWF a.bhv ∧ a.hhv < 2 ^ 32 ∧ AttrWF a.blk ∧ AttrWF a.rev

def TxAttrWF (a : TxAttr) : Prop := a.blk < 2 ^ 256 ∧ a.idx < 2 ^ 16

def BestWF (b : Best) : Prop := b.id < 2 ^ 256 ∧ b.height < 2 ^ 32

def CoinAttrWF (c : CoinAttr) : Prop :=
  -(2 ^ 63) ≤ c.value ∧ c.value < 2 ^ 63 ∧ c.flags < 2 ^ 8 ∧ c.height < 2 ^ 32

/-! ## Round-trip lemmas -/

theorem readHasher_encHasher (h : Hasher) (r : Bytes) (hw : h < 2 ^ 256) :
    readHasher (encHasher h ++ r) = some (h, r) :=
  readLE_toLE_of_lt 32 h r (by norm_num at hw ⊢; exact hw)

theorem readScript_encScript (s : Script) (r : Bytes) (hw : ScriptWF s) :
    readScript (encScript s ++ r) = some (s, r) := by
  unfold readScript encScript
  rw [List.append_assoc, readUsize_usizeEnc _ _ hw]
  exact readBytes_append s r

theorem readLE2 (v : Nat) (r : Bytes) (h : v < 2 ^ 16) :
    readLE 2 (toLE 2 v ++ r) = some (v, r) :=
  readLE_toLE_of_lt 2 v r (by norm_num at h ⊢; exact h)

theorem readLE4 (v : Nat) (r : Bytes) (h : v < 2 ^ 32) :
    readLE 4 (toLE 4 v ++ r) = some (v, r) :=
  readLE_toLE_of_lt 4 v r (by norm_num at h ⊢; exact h)

theorem readLE1 (v : Nat) (r : Bytes) (h : v < 2 ^ 8) :
    readLE 1 (toLE 1 v ++ r) = some (v, r) :=
  readLE_toLE_of_lt 1 v r (by norm_num at h ⊢; exact h)

theorem readTxIn_encTxIn (i : TxIn) (r : Bytes) (hw : TxInWF i) :
    readTxIn (encTxIn i ++ r) = some (i, r) := by
  obtain ⟨h1, h2, h3, h4⟩ := hw
  have e1 := fun r' => readHasher_encHasher i.out r' h1
  have e2 := fun r' => readLE2 i.idx r' h2
  have e3 := fun r' => readScript_encScript i.script r' h3
  have e4 := fun r' => readLE4 i.seq r' h4
  simp only [readTxIn, encTxIn, List.append_assoc, e1, e2, e3, e4]

theorem readTxOut_encTxOut (o : TxOut) (r : Bytes) (hw : TxOutWF o) :
    readTxOut (encTxOut o ++ r) = some (o, r) := by
  obtain ⟨h1, h2, h3⟩ := hw
  have e1 := fun r' => readI64_encI64 o.value r' h1 h2
  have e2 := fun r' => readScript_encScript o.script r' h3
  simp only [readTxOut, encTxOut, List.append_assoc, e1, e2]

theorem readList_enc {α : Type} (enc : α → Bytes) (dec : Bytes → Option (α × Bytes))
    (l : List α) (r : Bytes)
    (h : ∀ a ∈ l, ∀ r', dec (enc a ++ r') = some (a, r')) :
    readList dec l.length ((l.map enc).flatten ++ r) = some (l, r) := by
  induction l with
  | nil => rfl
  | cons a as ih =>
    have e1 := h a (List.mem_cons_self a as)
    have e2 := ih (fun x hx r' => h x (List.mem_cons_of_mem a hx) r')
    simp only [List.map_cons, List.flatten_cons, List.length_cons, readList,
      List.append_assoc, e1, e2]

theorem readTx_encTx (t : Tx) (r : Bytes) (hw : TxWF t) :
    readTx (encTx t ++ r) = some (t, r) := by
  obtain ⟨h1, h2, h3, h4, h5⟩ := hw
  have e1 := fun r' => readLE4 t.ver r' h1
  have e2 := fun r' => readLE2 t.ins.length r' h2
  have e3 := fun r' => readList_enc encTxIn readTxIn t.ins r'
    (fun i hi r'' => readTxIn_encTxIn i r'' (h4 i hi))
  have e4 := fun r' => readLE2 t.outs.length r' h3
  have e5 := fun r' => readList_enc encTxOut readTxOut t.outs r'
    (fun o ho r'' => readTxOut_encTxOut o r'' (h5 o ho))
  simp only [readTx, encTx, List.append_assoc, e1, e2, e3, e4, e5]

theorem readHeader_encHeader (h : Header) (r : Bytes) (hw : HeaderWF h) :
    readHeader (encHeader h ++ r) = some (h, r) := by
  obtain ⟨h1, h2, h3, h4, h5, h6⟩ := hw
  have e1 := fun r' => readLE4 h.ver r' h1
  have e2 := fun r' => readHasher_encHasher h.prev r' h2
  have e3 := fun r' => readHasher_encHasher h.merkle r' h3
  have e4 := fun r' => readLE4 h.time r' h4
  have e5 := fun r' => readLE4 h.bits r' h5
  have e6 := fun r' => readLE4 h.nonce r' h6
  simp only [readHeader, encHeader, List.append_assoc, e1, e2, e3, e4, e5, e6]

theorem readBlock_encBlock (b : Block) (r : Bytes) (hw : BlockWF b) :
    readBlock (encBlock b ++ r) = some (b, r) := by
  obtain ⟨h1, h2, h3⟩ := hw
  have e1 := fun r' => readHeader_encHeader b.header r' h1
  have e2 := fun r' => readLE2 b.txs.length r' h2
  have e3 := fun r' => readList_enc encTx readTx b.txs r'
    (fun t ht r'' => readTx_encTx t r'' (h3 t ht))
  simp only [readBlock, encBlock, List.append_assoc, e1, e2, e3]

theorem readAttr_encAttr (a : Attr) (r : Bytes) (hw : AttrWF a) :
    readAttr (encAttr a ++ r) = some (a, r) := by
  obtain ⟨h1, h2, h3⟩ := hw
  have e1 := fun r' => readLE4 a.idx r' h1
  have e2 := fun r' => readLE4 a.off r' h2
  have e3 := fun r' => readLE4 a.len r' h3
  simp only [readAttr, encAttr, List.append_assoc, e1, e2, e3]

theorem readBlkAttr_encBlkAttr (a : BlkAttr) (r : Bytes) (hw : BlkAttrWF a) :
    readBlkAttr (encBlkAttr a ++ r) = some (a, r) := by
  obtain ⟨h1, h2, h3, h4⟩ := hw
  have e1 := fun r' => readHeader_encHeader a.bhv r' h1
  have e2 := fun r' => readLE4 a.hhv r' h2
  have e3 := fun r' => readAttr_encAttr a.blk r' h3
  have e4 := fun r' => readAttr_encAttr a.rev r' h4
  simp only [readBlkAttr, encBlkAttr, List.append_assoc, e1, e2, e3, e4]

theorem readTxAttr_encTxAttr (a : TxAttr) (r : Bytes) (hw : TxAttrWF a) :
    readTxAttr (encTxAttr a ++ r) = some (a, r) := by
  obtain ⟨h1, h2⟩ := hw
  have e1 := fun r' => readHasher_encHasher a.blk r' h1
  have e2 := fun r' => readLE2 a.idx r' h2
  simp only [readTxAttr, encTxAttr, List.append_assoc, e1, e2]

theorem readBest_encBest (b : Best) (r : Bytes) (hw : BestWF b) :
    readBest (encBest b ++ r) = some (b, r) := by
  obtain ⟨h1, h2⟩ := hw
  have e1 := fun r' => readHasher_encHasher b.id r' h1
  have e2 := fun r' => readLE4 b.height r' h2
  simp only [readBest, encBest, List.append_assoc, e1, e2]

theorem readCoinAttr_encCoinAttr (c : CoinAttr) (r : Bytes) (hw : CoinAttrWF c) :
    readCoinAttr (encCoinAttr c ++ r)
      = some (⟨0, 0, 0, c.value, c.flags, c.height⟩, r) := by
  obtain ⟨h1, h2, h3, h4⟩ := hw
  have e1 := fun r' => readI64_encI64 c.value r' h1 h2
  have e2 := fun r' => readLE1 c.flags r' h3
  have e3 := fun r' => readLE4 c.height r' h4
  simp only [readCoinAttr, encCoinAttr, List.append_assoc, e1, e2, e3,
    CoinAttr.default]

/-- C9: Serialization round trip: for each of Header, Block, Tx, TxIn,
TxOut, Script, coin value record (CoinAttr), BlkAttr, TxAttr and Best,
decoding the binary encoding of a value within the datatype's bounds
(counts fit `u16`, script length ≤ 32767 bytes, integer fields within
their machine widths) yields a value equal to the original.  For the coin
value record only `value`, `flags`, `height` are serialized; the key
parts (`cpk`, `tx`, `idx`) decode to their defaults exactly as in
`CoinAttr::decode`, and equality holds on the serialized value record. -/
theorem c9_serialization_round_trip :
    (∀ (h : Header) (r : Bytes), HeaderWF h →
      readHeader (encHeader h ++ r) = some (h, r))
    ∧ (∀ (b : Block) (r : Bytes), BlockWF b →
      readBlock (encBlock b ++ r) = some (b, r))
    ∧ (∀ (t : Tx) (r : Bytes), TxWF t → readTx (encTx t ++ r) = some (t, r))
    ∧ (∀ (i : TxIn) (r : Bytes), TxInWF i →
      readTxIn (encTxIn i ++ r) = some (i, r))
    ∧ (∀ (o : TxOut) (r : Bytes), TxOutWF o →
      readTxOut (encTxOut o ++ r) = some (o, r))
    ∧ (∀ (s : Script) (r : Bytes), ScriptWF s →
      readScript (encScript s ++ r) = some (s, r))
    ∧ (∀ (c : CoinAttr) (r : Bytes), CoinAttrWF c →
      readCoinAttr (encCoinAttr c ++ r)
        = some (⟨0, 0, 0, c.value, c.flags, c.height⟩, r))
    ∧ (∀ (a : BlkAttr) (r : Bytes), BlkAttrWF a →
      readBlkAttr (encBlkAttr a ++ r) = some (a, r))
    ∧ (∀ (a : TxAttr) (r : Bytes), TxAttrWF a →
      readTxAttr (encTxAttr a ++ r) = some (a, r))
    ∧ (∀ (b : Best) (r : Bytes), BestWF b →
      readBest (encBest b ++ r) = some (b, r)) :=
  ⟨fun h r hw => readHeader_encHeader h r hw,
    fun b r hw => readBlock_encBlock b r hw,
    fun t r hw => readTx_encTx t r hw,
    fun i r hw => readTxIn_encTxIn i r hw,
    fun o r hw => readTxOut_encTxOut o r hw,
    fun s r hw => readScript_encScript s r hw,
    fun c r hw => readCoinAttr_encCoinAttr c r hw,
    fun a r hw => readBlkAttr_encBlkAttr a r hw,
    fun a r hw => readTxAttr_encTxAttr a r hw,
    fun b r hw => readBest_encBest b r hw⟩

/-! ## Compact-target arithmetic (`hasher.rs`)

`BigUint::bits()` and the byte length of a big integer. -/

/-- `BigUint::bits()`: 0 for 0, else `log2 + 1`. -/
def bitsLen (n : Nat) : Nat := if n = 0 then 0 else Nat.log2 n + 1

/-- `Hasher::low64`: the low 64 bits of the 32-bit digit vector. -/
def low64 (n : Nat) : Nat := n % 2 ^ 64

/-- Body of `Hasher::compact` once the byte length `s = (bits + 7) / 8` is
known.  `cv` is always `< 2 ^ 24` here, so the final `cv |= s << 24` is
addition of disjoint bit ranges; `cv as u32` is the trailing `% 2 ^ 32`. -/
def compactAux (t s : Nat) : Nat :=
  let cv := if s ≤ 3 then low64 t * 2 ^ (8 * (3 - s)) else low64 (t / 2 ^ (8 * (s - 3)))
  if cv / 2 ^ 23 % 2 = 1 then (cv / 2 ^ 8 + (s + 1) * 2 ^ 24) % 2 ^ 32
  else (cv + s * 2 ^ 24) % 2 ^ 32

/-- `Hasher::compact`. -/
def compact (t : Nat) : Nat := compactAux t ((bitsLen t + 7) / 8)

/-- `impl TryFrom<u32> for Hasher`: decode compact bits to a target.
`size = value >> 24`, `w = value & 0x007fffff`; the conversion
`From<&BigUint> for Hasher` only represents values of at most 32 bytes
(beyond that `clone_from_slice` panics), modelled as `none`. -/
def fromCompact (v : Nat) : Option Nat :=
  let size := v / 2 ^ 24
  let w := v % 2 ^ 23
  let t := if size ≤ 3 then w / 2 ^ (8 * (3 - size)) else w * 2 ^ (8 * (size - 3))
  if t < 2 ^ 256 then some t else none

/-- `Hasher::verify_pow`: `pl >= target && id <= target`. -/
def verifyPow (id pl bits : Nat) : Bool :=
  match fromCompact bits with
  | none => false
  | some v => decide (v ≤ pl ∧ id ≤ v)

/-- `Config::compute_reward` (`config.rs`). -/
def computeReward (halving : Nat) (h : Nat) : Int :=
  let hlv := h / halving
  if hlv ≥ 64 then 0 else (50 * 1000000) / 2 ^ hlv

/-- `Hasher::compute_bits`: retarget arithmetic.  `sub = (ltime - ptime) as
u32` is the truncating i64→u32 cast; `Mul`/`Div` on `Hasher` go through
`BigUint` and back, the result conversion failing (`none`) for values over
32 bytes. -/
def computeBits (plimit : Nat) (stime : Nat) (ltime ptime : Int) (lbits : Nat) :
    Option Nat :=
  let sub := ((ltime - ptime) % (2 ^ 32 : Int)).toNat
  let sub := if sub < stime / 4 then stime / 4 else sub
  let sub := if sub > stime * 4 then stime * 4 else sub
  match fromCompact lbits with
  | none => some (compact plimit)
  | some pow =>
    if pow * sub < 2 ^ 256 then
      let pow := pow * sub / stime
      if pow < 2 ^ 256 then
        some (if pow ≤ plimit then compact pow else compact plimit)
      else none
    else none

theorem bitsLen_ge (n k : Nat) (h : 2 ^ k ≤ n) : k + 1 ≤ bitsLen n := by
  have hn : n ≠ 0 := by
    have : 0 < 2 ^ k := Nat.pos_pow_of_pos _ (by norm_num)
    omega
  unfold bitsLen
  rw [if_neg hn]
  have := (Nat.le_log2 hn).2 h
  omega

theorem bitsLen_le (n k : Nat) (h : n < 2 ^ k) : bitsLen n ≤ k := by
  unfold bitsLen
  split
  · omega
  · have := (Nat.log2_lt (by assumption)).2 h
    omega

theorem bytesLen_eq (n s : Nat) (h1 : 2 ^ (8 * s) ≤ n) (h2 : n < 2 ^ (8 * s + 8)) :
    (bitsLen n + 7) / 8 = s + 1 := by
  have g1 := bitsLen_ge n (8 * s) h1
  have g2 := bitsLen_le n (8 * s + 8) h2
  omega

theorem compact_eq_aux (t s0 : Nat) (h : (bitsLen t + 7) / 8 = s0) :
    compact t = compactAux t s0 := by
  rw [compact, h]

/-- `compact` on a target with a 3-byte mantissa `c` (top byte nonzero). -/
theorem compact_mantissa3 (c s : Nat) (hs : 3 ≤ s) (hc1 : 2 ^ 16 ≤ c)
    (hc2 : c < 2 ^ 23) (hs2 : s ≤ 33) :
    compact (c * 2 ^ (8 * (s - 3))) = c + s * 2 ^ 24 := by
  have hb1 : 2 ^ (8 * (s - 1)) ≤ c * 2 ^ (8 * (s - 3)) := by
    calc 2 ^ (8 * (s - 1)) = 2 ^ 16 * 2 ^ (8 * (s - 3)) := by
          rw [← pow_add]; congr 1; omega
    _ ≤ c * 2 ^ (8 * (s - 3)) := Nat.mul_le_mul_right _ hc1
  have hb2 : c * 2 ^ (8 * (s - 3)) < 2 ^ (8 * (s - 1) + 8) := by
    calc c * 2 ^ (8 * (s - 3)) < 2 ^ 23 * 2 ^ (8 * (s - 3)) :=
          mul_lt_mul_of_pos_right hc2 (Nat.pos_pow_of_pos _ (by norm_num))
    _ ≤ 2 ^ (8 * (s - 1) + 8) := by
          rw [← pow_add]
          exact Nat.pow_le_pow_right (by norm_num) (by omega)
  rw [compact_eq_aux _ s (by rw [bytesLen_eq _ (s - 1) hb1 hb2]; omega)]
  unfold compactAux low64
  have hcv : (if s ≤ 3 then
      c * 2 ^ (8 * (s - 3)) % 2 ^ 64 * 2 ^ (8 * (3 - s))
      else c * 2 ^ (8 * (s - 3)) / 2 ^ (8 * (s - 3)) % 2 ^ 64) = c := by
    split
    · have h3 : s = 3 := by omega
      subst h3
      norm_num
      omega
    · rw [Nat.mul_div_left c (Nat.pos_pow_of_pos _ (show 0 < 2 by norm_num))]
      omega
  rw [hcv]
  rw [if_neg (by omega)]
  have : c + s * 2 ^ 24 < 2 ^ 32 := by nlinarith
  omega

/-- `compact` on a target with a 2-byte mantissa `c` with its top bit set:
the encoder's `0x00800000` renormalization fires. -/
theorem compact_mantissa2 (c s : Nat) (hs : 3 ≤ s) (hc1 : 2 ^ 15 ≤ c)
    (hc2 : c < 2 ^ 16) (hs2 : s ≤ 33) :
    compact (c * 2 ^ (8 * (s - 3))) = c + s * 2 ^ 24 := by
  have hb1 : 2 ^ (8 * (s - 2)) ≤ c * 2 ^ (8 * (s - 3)) := by
    calc 2 ^ (8 * (s - 2)) ≤ 2 ^ 15 * 2 ^ (8 * (s - 3)) := by
          rw [← pow_add]
          exact Nat.pow_le_pow_right (by norm_num) (by omega)
    _ ≤ c * 2 ^ (8 * (s - 3)) := Nat.mul_le_mul_right _ hc1
  have hb2 : c * 2 ^ (8 * (s - 3)) < 2 ^ (8 * (s - 2) + 8) := by
    calc c * 2 ^ (8 * (s - 3)) < 2 ^ 16 * 2 ^ (8 * (s - 3)) :=
          mul_lt_mul_of_pos_right hc2 (Nat.pos_pow_of_pos _ (by norm_num))
    _ ≤ 2 ^ (8 * (s - 2) + 8) := by
          rw [← pow_add]
          exact Nat.pow_le_pow_right (by norm_num) (by omega)
  rw [compact_eq_aux _ (s - 1) (by rw [bytesLen_eq _ (s - 2) hb1 hb2]; omega)]
  unfold compactAux low64
  have hcv : (if s - 1 ≤ 3 then
      c * 2 ^ (8 * (s - 3)) % 2 ^ 64 * 2 ^ (8 * (3 - (s - 1)))
      else c * 2 ^ (8 * (s - 3)) / 2 ^ (8 * (s - 1 - 3)) % 2 ^ 64) = c * 2 ^ 8 := by
    split
    · have h3 : s = 3 ∨ s = 4 := by omega
      rcases h3 with h3 | h3 <;> subst h3 <;> norm_num <;> omega
    · have h4 : 4 ≤ s := by omega
      have : 8 * (s - 3) = 8 * (s - 1 - 3) + 8 := by omega
      rw [this, pow_add, ← Nat.mul_assoc,
        Nat.mul_right_comm c (2 ^ (8 * (s - 1 - 3))) (2 ^ 8),
        Nat.mul_div_left (c * 2 ^ 8) (Nat.pos_pow_of_pos _ (show 0 < 2 by norm_num))]
      have : c * 2 ^ 8 < 2 ^ 64 := by nlinarith
      omega
  rw [hcv]
  rw [if_pos (by omega)]
  have e1 : c * 2 ^ 8 / 2 ^ 8 = c := Nat.mul_div_cancel c (by norm_num)
  rw [e1]
  have e2 : s - 1 + 1 = s := by omega
  rw [e2]
  have : c + s * 2 ^ 24 < 2 ^ 32 := by nlinarith
  omega

/-- A canonical compact value: mantissa high bit `0x00800000` clear,
mantissa normalized the way the encoder produces it (top significant byte
at the mantissa's high end, with no bits lost by the exponent shift), and
decodable into 32 bytes. -/
def isCanonicalCompact (b : Nat) : Prop :=
  b < 2 ^ 32 ∧ b % 2 ^ 24 / 2 ^ 23 = 0 ∧ 2 ^ 15 ≤ b % 2 ^ 24
    ∧ (if b / 2 ^ 24 ≤ 3 then b % 2 ^ 24 % 2 ^ (8 * (3 - b / 2 ^ 24)) = 0
      else b % 2 ^ 24 * 2 ^ (8 * (b / 2 ^ 24 - 3)) < 2 ^ 256)

instance (b : Nat) : Decidable (isCanonicalCompact b) := by
  unfold isCanonicalCompact
  infer_instance

/-! ## Coin flags and maturity (`index.rs`) -/

/-- `COIN_ATTR_FLAGS_COINBASE = 1 << 0`. -/
def COIN_ATTR_FLAGS_COINBASE : Nat := 1

/-- `COIN_ATTR_FLAGS_TXPOOL = 1 << 1`. -/
def COIN_ATTR_FLAGS_TXPOOL : Nat := 2

/-- Modelled from the spec: `consts::COINBASE_MATURITY` is referenced by
`index.rs` but its definition is not under `src/`; spec §6 fixes it to 100. -/
def COINBASE_MATURITY : Nat := 100

/-- `CoinAttr::is_txpool`: `flags & COIN_ATTR_FLAGS_TXPOOL != 0`. -/
def CoinAttr.is_txpool (c : CoinAttr) : Bool := c.flags / 2 % 2 = 1

/-- `CoinAttr::is_coinbase`: `flags & COIN_ATTR_FLAGS_COINBASE != 0`. -/
def CoinAttr.is_coinbase (c : CoinAttr) : Bool := c.flags % 2 = 1

/-- `CoinAttr::is_valid(spent)`.  `spent - self.height` is `u32`
subtraction, which wraps modulo `2^32` when `spent < height`
(release-profile Rust overflow semantics). -/
def CoinAttr.is_valid (c : CoinAttr) (spent : Nat) : Bool :=
  if c.is_txpool then false
  else if ¬ c.is_coinbase then true
  else decide ((spent + 2 ^ 32 - c.height) % 2 ^ 32 ≥ COINBASE_MATURITY)

/-- C5 counterexample: the claim's maturity formula reads `s minus height`
as integer subtraction, but the code computes it in `u32`: at spending
height 0 a coinbase coin recorded at height 200 is accepted by
`is_valid` (the wrapped difference is ≥ 100) although `0 - 200 < 100`,
the coin is not from the mempool and is a coinbase coin. -/
theorem c5_maturity_counterexample :
    (⟨0, 0, 0, 5, 1, 200⟩ : CoinAttr).is_valid 0 = true
    ∧ (⟨0, 0, 0, 5, 1, 200⟩ : CoinAttr).is_txpool = false
    ∧ (⟨0, 0, 0, 5, 1, 200⟩ : CoinAttr).is_coinbase = true
    ∧ ((0 : Int) - 200 < (COINBASE_MATURITY : Int)) := by
  refine ⟨by decide, by decide, by decide, by decide⟩

/-- C5 (amended): for spending heights `s` with
`height ≤ s < height + 2^32` (always the case for the `u32` heights link
and mempool admission pass), the maturity predicate accepts iff the
from-mempool flag (bit 1) is clear and either the coin is not a coinbase
coin or `s - height ≥ COINBASE_MATURITY`; a from-mempool coin is never
accepted at any height. -/
theorem c5_maturity (c : CoinAttr) (s : Nat) (hs : c.height ≤ s)
    (hw : s < c.height + 2 ^ 32) :
    (c.is_valid s = true ↔
      (c.flags / 2 % 2 = 0
        ∧ (c.flags % 2 = 0 ∨ s - c.height ≥ COINBASE_MATURITY)))
    ∧ (∀ s', c.is_txpool = true → c.is_valid s' = false) := by
  have hmod : (s + 2 ^ 32 - c.height) % 2 ^ 32 = s - c.height := by omega
  constructor
  · unfold CoinAttr.is_valid CoinAttr.is_txpool CoinAttr.is_coinbase
      COINBASE_MATURITY
    rw [hmod]
    by_cases hp : c.flags / 2 % 2 = 1 <;> by_cases hcb : c.flags % 2 = 1 <;>
      simp [hp, hcb] <;> omega
  · intro s' hp
    unfold CoinAttr.is_valid
    rw [if_pos hp]

/-- C5 witness: a coinbase coin minted at height 0 is accepted at
spending height 100. -/
theorem c5_maturity_witness :
    ((⟨0, 0, 0, 5, 1, 0⟩ : CoinAttr).is_valid 100 = true ↔
      ((⟨0, 0, 0, 5, 1, 0⟩ : CoinAttr).flags / 2 % 2 = 0
        ∧ ((⟨0, 0, 0, 5, 1, 0⟩ : CoinAttr).flags % 2 = 0
          ∨ 100 - (⟨0, 0, 0, 5, 1, 0⟩ : CoinAttr).height ≥ COINBASE_MATURITY)))
    ∧ (∀ s', (⟨0, 0, 0, 5, 1, 0⟩ : CoinAttr).is_txpool = true →
      (⟨0, 0, 0, 5, 1, 0⟩ : CoinAttr).is_valid s' = false) :=
  c5_maturity ⟨0, 0, 0, 5, 1, 0⟩ 100 (by decide) (by decide)

/-- C8: Compact-target round trip: for every canonical 32-bit compact
value `b` (mantissa and exponent in the normalized form the encoder
produces, mantissa high bit `0x00800000` clear), decoding `b` to a
256-bit target and re-encoding returns `b`:
`Hasher::from_compact(b).compact() = b`. -/
theorem c8_compact_round_trip (b : Nat) (hc : isCanonicalCompact b) :
    ∃ t, fromCompact b = some t ∧ compact t = b := by
  obtain ⟨hb, hbit, hlo, hbr⟩ := hc
  have hw : b % 2 ^ 23 = b % 2 ^ 24 := by omega
  simp only [fromCompact]
  rw [hw]
  by_cases hs4 : b / 2 ^ 24 ≤ 3
  · rw [if_pos hs4] at hbr ⊢
    rw [if_pos (show b % 2 ^ 24 / 2 ^ (8 * (3 - b / 2 ^ 24)) < 2 ^ 256 by
      have : b % 2 ^ 24 / 2 ^ (8 * (3 - b / 2 ^ 24)) ≤ b % 2 ^ 24 :=
        Nat.div_le_self _ _
      omega)]
    refine ⟨_, rfl, ?_⟩
    have hsplit : b / 2 ^ 24 = 0 ∨ b / 2 ^ 24 = 1 ∨ b / 2 ^ 24 = 2
        ∨ b / 2 ^ 24 = 3 := by omega
    rcases hsplit with h0 | h1 | h2 | h3
    · rw [h0] at hbr
      norm_num at hbr
      omega
    · rw [h1] at hbr ⊢
      norm_num at hbr ⊢
      rw [compact_eq_aux _ 1 (bytesLen_eq _ 0 (by omega) (by omega))]
      unfold compactAux low64
      norm_num
      split <;> omega
    · rw [h2] at hbr ⊢
      norm_num at hbr ⊢
      by_cases hm16 : b % 2 ^ 24 < 2 ^ 16
      · rw [compact_eq_aux _ 1 (bytesLen_eq _ 0 (by omega) (by omega))]
        unfold compactAux low64
        norm_num
        split <;> omega
      · rw [compact_eq_aux _ 2 (bytesLen_eq _ 1 (by omega) (by omega))]
        unfold compactAux low64
        norm_num
        split <;> omega
    · rw [h3] at hbr ⊢
      norm_num at hbr ⊢
      by_cases hm16 : b % 2 ^ 24 < 2 ^ 16
      · have := compact_mantissa2 (b % 2 ^ 24) 3 (by norm_num) hlo (by omega)
          (by norm_num)
        norm_num at this
        rw [this]
        omega
      · have := compact_mantissa3 (b % 2 ^ 24) 3 (by norm_num) (by omega)
          (by omega) (by norm_num)
        norm_num at this
        rw [this]
        omega
  · rw [if_neg hs4] at hbr ⊢
    rw [if_pos hbr]
    refine ⟨_, rfl, ?_⟩
    have hs33 : b / 2 ^ 24 ≤ 33 := by
      by_contra hgt
      push_neg at hgt
      have e1 : (2 : Nat) ^ 248 ≤ 2 ^ (8 * (b / 2 ^ 24 - 3)) :=
        Nat.pow_le_pow_right (by norm_num) (by omega)
      have e2 : 2 ^ 15 * 2 ^ 248 ≤ b % 2 ^ 24 * 2 ^ (8 * (b / 2 ^ 24 - 3)) :=
        Nat.mul_le_mul hlo e1
      have e3 : (2 : Nat) ^ 256 < 2 ^ 15 * 2 ^ 248 := by norm_num
      omega
    by_cases hm16 : b % 2 ^ 24 < 2 ^ 16
    · rw [compact_mantissa2 (b % 2 ^ 24) (b / 2 ^ 24) (by omega) hlo hm16 hs33]
      omega
    · rw [compact_mantissa3 (b % 2 ^ 24) (b / 2 ^ 24) (by omega) (by omega)
        (by omega) hs33]
      omega

/-- C8 witness: the mainnet-style value `0x1d00ffff` is canonical and
round trips. -/
theorem c8_compact_round_trip_witness :
    isCanonicalCompact 0x1d00ffff
    ∧ ∃ t, fromCompact 0x1d00ffff = some t ∧ compact t = 0x1d00ffff :=
  ⟨by decide, c8_compact_round_trip 0x1d00ffff (by decide)⟩

/-- Sample values used by the round-trip witness. -/
def wTxIn : TxIn := ⟨3, 2, [0xFF, 0x02, 0xB0, 1, 9], 4⟩

def wTxOut : TxOut := ⟨50000000, [0xFF, 0x03, 0xC7]⟩

def wTx : Tx := ⟨1, [wTxIn], [wTxOut]⟩

def wHeader : Header := ⟨65537, 5, 7, 9, 11, 13⟩

def wBlock : Block := ⟨wHeader, [wTx]⟩

def wCoin : CoinAttr := ⟨0, 0, 0, -7, 1, 20⟩

def wBlkAttr : BlkAttr := ⟨wHeader, 6, ⟨1, 2, 3⟩, ⟨4, 5, 6⟩⟩

theorem c9_serialization_round_trip_witness :
    readHeader (encHeader wHeader ++ [9, 9]) = some (wHeader, [9, 9])
    ∧ readBlock (encBlock wBlock ++ []) = some (wBlock, [])
    ∧ readTx (encTx wTx ++ [1]) = some (wTx, [1])
    ∧ readTxIn (encTxIn wTxIn ++ []) = some (wTxIn, [])
    ∧ readTxOut (encTxOut wTxOut ++ []) = some (wTxOut, [])
    ∧ readScript (encScript [0xFF, 0x01] ++ [5]) = some ([0xFF, 0x01], [5])
    ∧ readCoinAttr (encCoinAttr wCoin ++ []) = some (⟨0, 0, 0, -7, 1, 20⟩, [])
    ∧ readBlkAttr (encBlkAttr wBlkAttr ++ []) = some (wBlkAttr, [])
    ∧ readTxAttr (encTxAttr ⟨8, 2⟩ ++ []) = some (⟨8, 2⟩, [])
    ∧ readBest (encBest ⟨15, 4⟩ ++ []) = some (⟨15, 4⟩, []) :=
  ⟨c9_serialization_round_trip.1 wHeader _ (by norm_num [HeaderWF, wHeader]),
    c9_serialization_round_trip.2.1 wBlock _ (by
      norm_num [BlockWF, HeaderWF, TxWF, TxInWF, TxOutWF, ScriptWF, wBlock,
        wHeader, wTx, wTxIn, wTxOut]),
    c9_serialization_round_trip.2.2.1 wTx _ (by
      norm_num [TxWF, TxInWF, TxOutWF, ScriptWF, wTx, wTxIn, wTxOut]),
    c9_serialization_round_trip.2.2.2.1 wTxIn _ (by
      norm_num [TxInWF, ScriptWF, wTxIn]),
    c9_serialization_round_trip.2.2.2.2.1 wTxOut _ (by
      norm_num [TxOutWF, ScriptWF, wTxOut]),
    c9_serialization_round_trip.2.2.2.2.2.1 [0xFF, 0x01] _ (by
      norm_num [ScriptWF]),
    c9_serialization_round_trip.2.2.2.2.2.2.1 wCoin _ (by
      norm_num [CoinAttrWF, wCoin]),
    c9_serialization_round_trip.2.2.2.2.2.2.2.1 wBlkAttr _ (by
      norm_num [BlkAttrWF, HeaderWF, AttrWF, wBlkAttr, wHeader]),
    c9_serialization_round_trip.2.2.2.2.2.2.2.2.1 ⟨8, 2⟩ _ (by
      norm_num [TxAttrWF]),
    c9_serialization_round_trip.2.2.2.2.2.2.2.2.2 ⟨15, 4⟩ _ (by
      norm_num [BestWF])⟩

/-! ## The key-value index (`leveldb.rs` `LevelDB`)

An ordered map from key bytes to value bytes, modelled as an association
list strictly sorted by the lexicographic byte order (`List Nat` order) —
the canonical representation of the leveldb content, so equality of the
model is byte-for-byte equality of the index content. -/

abbrev Kv := List (Bytes × Bytes)

/-- `LevelDB::get` (content view). -/
def kvGet : Kv → Bytes → Option Bytes
  | [], _ => none
  | (k', v) :: rest, k => if k' = k then some v else kvGet rest k

/-- Insert or replace, keeping the list sorted. -/
def kvPut : Kv → Bytes → Bytes → Kv
  | [], k, v => [(k, v)]
  | (k', v') :: rest, k, v =>
    if k = k' then (k, v) :: rest
    else if k < k' then (k, v) :: (k', v') :: rest
    else (k', v') :: kvPut rest k v

/-- Delete a key. -/
def kvDel : Kv → Bytes → Kv
  | [], _ => []
  | (k', v') :: rest, k => if k' = k then rest else (k', v') :: kvDel rest k

/-- The sortedness invariant of the model. -/
def KvSorted (kv : Kv) : Prop := List.Pairwise (fun a b => a.1 < b.1) kv

/-- `LevelDB::has`: present with a non-empty value. -/
def kvHas (kv : Kv) (k : Bytes) : Bool :=
  match kvGet kv k with
  | none => false
  | some v => v.length > 0

theorem kvGet_mem {kv : Kv} {k v : Bytes} (h : kvGet kv k = some v) :
    (k, v) ∈ kv := by
  induction kv with
  | nil => simp [kvGet] at h
  | cons p rest ih =>
    rw [kvGet] at h
    split at h
    · rename_i he
      simp only [Option.some.injEq] at h
      subst he h
      exact List.mem_cons_self _ _
    · exact List.mem_cons_of_mem _ (ih h)

theorem kvGet_none_of_not_mem {kv : Kv} {k : Bytes}
    (h : ∀ p ∈ kv, p.1 ≠ k) : kvGet kv k = none := by
  induction kv with
  | nil => rfl
  | cons p rest ih =>
    rw [kvGet]
    rw [if_neg (h p (List.mem_cons_self _ _))]
    exact ih fun q hq => h q (List.mem_cons_of_mem _ hq)

theorem kvGet_put (kv : Kv) (k v k' : Bytes) (hs : KvSorted kv) :
    kvGet (kvPut kv k v) k' = if k' = k then some v else kvGet kv k' := by
  induction kv with
  | nil =>
    simp only [kvPut, kvGet]
    split
    · rename_i he
      rw [if_pos he.symm]
    · rename_i he
      rw [if_neg (fun hh => he hh.symm)]
  | cons p rest ih =>
    obtain ⟨hp, hrest⟩ := List.pairwise_cons.1 hs
    rw [kvPut]
    split
    · rename_i he
      subst he
      rw [kvGet, kvGet]
      split
      · rename_i hk
        rw [if_pos hk.symm]
      · rename_i hk
        rw [if_neg (fun hh => hk hh.symm)]
    · rename_i hne
      split
      · rw [kvGet]
        split
        · rename_i hk
          rw [if_pos hk.symm]
        · rename_i hk
          rw [if_neg (fun hh => hk hh.symm)]
      · rename_i hlt
        rw [kvGet, kvGet]
        split
        · rename_i hk
          rw [if_neg]
          intro hh
          exact hne (hh ▸ hk).symm
        · exact ih hrest

theorem kvDel_sublist (kv : Kv) (k : Bytes) : (kvDel kv k).Sublist kv := by
  induction kv with
  | nil => simp [kvDel]
  | cons p rest ih =>
    rw [kvDel]
    split
    · exact (List.sublist_cons_self p rest)
    · exact List.Sublist.cons₂ p ih

theorem kvGet_del (kv : Kv) (k k' : Bytes) (hs : KvSorted kv) :
    kvGet (kvDel kv k) k' = if k' = k then none else kvGet kv k' := by
  induction kv with
  | nil => simp [kvDel, kvGet]
  | cons p rest ih =>
    obtain ⟨hp, hrest⟩ := List.pairwise_cons.1 hs
    rw [kvDel]
    split
    · rename_i he
      subst he
      split
      · rename_i hk
        subst hk
        exact kvGet_none_of_not_mem fun q hq => ne_of_gt (hp q hq)
      · rename_i hk
        rw [kvGet, if_neg (fun hh => hk hh.symm)]
    · rename_i hne
      rw [kvGet, kvGet]
      split
      · rename_i hk
        rw [if_neg]
        intro hh
        exact hne (hh ▸ hk)
      · exact ih hrest

theorem kvPut_mem {kv : Kv} {k v : Bytes} {q : Bytes × Bytes}
    (h : q ∈ kvPut kv k v) : q = (k, v) ∨ q ∈ kv := by
  induction kv with
  | nil =>
    simp only [kvPut, List.mem_singleton] at h
    exact Or.inl h
  | cons r rs ihr =>
    rw [kvPut] at h
    split at h
    · rename_i he
      rcases List.mem_cons.1 h with h' | h'
      · exact Or.inl (by rw [h', he])
      · exact Or.inr (List.mem_cons_of_mem _ h')
    · split at h
      · rcases List.mem_cons.1 h with h' | h'
        · exact Or.inl h'
        · exact Or.inr h'
      · rcases List.mem_cons.1 h with h' | h'
        · exact Or.inr (h' ▸ List.mem_cons_self _ _)
        · rcases ihr h' with h'' | h''
          · exact Or.inl h''
          · exact Or.inr (List.mem_cons_of_mem _ h'')

theorem kvPut_sorted (kv : Kv) (k v : Bytes) (hs : KvSorted kv) :
    KvSorted (kvPut kv k v) := by
  induction kv with
  | nil => simp [kvPut, KvSorted]
  | cons p rest ih =>
    obtain ⟨hp, hrest⟩ := List.pairwise_cons.1 hs
    rw [kvPut]
    split
    · rename_i he
      subst he
      exact List.pairwise_cons.2 ⟨hp, hrest⟩
    · rename_i hne
      split
      · rename_i hlt
        refine List.pairwise_cons.2 ⟨?_, List.pairwise_cons.2 ⟨hp, hrest⟩⟩
        intro q hq
        rcases List.mem_cons.1 hq with hq | hq
        · exact hq ▸ hlt
        · exact lt_trans hlt (hp q hq)
      · rename_i hge
        have hgt : p.1 < k := by
          rcases lt_trichotomy k p.1 with h | h | h
          · exact absurd h hge
          · exact absurd h hne
          · exact h
        refine List.pairwise_cons.2 ⟨?_, ih hrest⟩
        intro q hq
        rcases kvPut_mem hq with h | h
        · exact h ▸ hgt
        · exact hp q h

theorem kvDel_sorted (kv : Kv) (k : Bytes) (hs : KvSorted kv) :
    KvSorted (kvDel kv k) :=
  List.Pairwise.sublist (kvDel_sublist kv k) hs

theorem kvGet_cons_self (p : Bytes × Bytes) (t : Kv) :
    kvGet (p :: t) p.1 = some p.2 := by
  rw [kvGet, if_pos rfl]

theorem kvExt (kv1 kv2 : Kv) (h1 : KvSorted kv1) (h2 : KvSorted kv2)
    (h : ∀ k, kvGet kv1 k = kvGet kv2 k) : kv1 = kv2 := by
  induction kv1 generalizing kv2 with
  | nil =>
    cases kv2 with
    | nil => rfl
    | cons q t2 =>
      have hq := h q.1
      rw [kvGet_cons_self] at hq
      simp [kvGet] at hq
  | cons p t1 ih =>
    cases kv2 with
    | nil =>
      have hp := h p.1
      rw [kvGet_cons_self] at hp
      simp [kvGet] at hp
    | cons q t2 =>
      obtain ⟨hp1, ht1⟩ := List.pairwise_cons.1 h1
      obtain ⟨hp2, ht2⟩ := List.pairwise_cons.1 h2
      have hkeys : p.1 = q.1 := by
        by_contra hne
        rcases lt_trichotomy p.1 q.1 with hlt | he | hgt
        · have hg1 := h p.1
          rw [kvGet_cons_self] at hg1
          have hm := kvGet_mem hg1.symm
          rcases List.mem_cons.1 hm with hh | hh
          · exact absurd (congrArg Prod.fst hh) hne
          · exact absurd hlt (not_lt_of_gt (hp2 _ hh))
        · exact hne he
        · have hg2 := h q.1
          rw [kvGet_cons_self] at hg2
          have hm := kvGet_mem hg2
          rcases List.mem_cons.1 hm with hh | hh
          · exact absurd (congrArg Prod.fst hh) (fun hx => hne hx.symm)
          · exact absurd hgt (not_lt_of_gt (hp1 _ hh))
      have hvals : p.2 = q.2 := by
        have hg := h p.1
        rw [kvGet_cons_self, kvGet, if_pos hkeys.symm] at hg
        exact Option.some.inj hg
      have htail : ∀ k, kvGet t1 k = kvGet t2 k := by
        intro k
        by_cases hk : k = p.1
        · subst hk
          rw [kvGet_none_of_not_mem fun r hr => ne_of_gt (hp1 r hr),
            kvGet_none_of_not_mem fun r hr => ne_of_gt (hkeys ▸ hp2 r hr)]
        · have hg := h k
          rw [kvGet, kvGet, if_neg (fun hx => hk hx.symm),
            if_neg (fun hx => hk (hkeys ▸ hx).symm)] at hg
          exact hg
      have hpq : p = q := Prod.ext hkeys hvals
      rw [hpq, ih t2 ht1 ht2 htail]

/-! ## Write batches (`leveldb.rs` `IBatch`)

A `Writebatch` is a log of operations replayed in insertion order. -/

inductive KvOp where
  | put (k v : Bytes)
  | del (k : Bytes)
  deriving DecidableEq, Repr

def applyOp (kv : Kv) : KvOp → Kv
  | .put k v => kvPut kv k v
  | .del k => kvDel kv k

/-- `LevelDB::write`: replay the batch operations in order. -/
def applyOps (kv : Kv) (ops : List KvOp) : Kv := ops.foldl applyOp kv

/-- `IBatch`: the forward batch `b` and, when inverse recording is on,
the inverse batch `f`. -/
structure IBatch where
  b : List KvOp
  f : Option (List KvOp)
  deriving DecidableEq, Repr

/-- `IBatch::new(rev)`. -/
def IBatch.new (rev : Bool) : IBatch := ⟨[], if rev then some [] else none⟩

/-- `IBatch::put` (serialized value `v`): forward put, inverse delete. -/
def IBatch.put (bt : IBatch) (k v : Bytes) : IBatch :=
  ⟨bt.b ++ [.put k v], bt.f.map (· ++ [.del k])⟩

/-- `IBatch::set(k, new, old)`: forward put of `new`, inverse put of `old`. -/
def IBatch.set (bt : IBatch) (k vnew vold : Bytes) : IBatch :=
  ⟨bt.b ++ [.put k vnew], bt.f.map (· ++ [.put k vold])⟩

/-- `IBatch::del(k, Some(old))`: forward delete, inverse put of `old`. -/
def IBatch.delSome (bt : IBatch) (k vold : Bytes) : IBatch :=
  ⟨bt.b ++ [.del k], bt.f.map (· ++ [.put k vold])⟩

/-- `IBatch::del(k, None)`: forward delete, no inverse record. -/
def IBatch.delNone (bt : IBatch) (k : Bytes) : IBatch :=
  ⟨bt.b ++ [.del k], bt.f⟩

/-- `IBatchIter`: type byte (1 put / 2 del), u16 key length, key,
(for puts) u16 value length, value. -/
def encOp : KvOp → Bytes
  | .put k v => 1 :: (toLE 2 k.length ++ k ++ (toLE 2 v.length ++ v))
  | .del k => 2 :: (toLE 2 k.length ++ k)

def encOps (ops : List KvOp) : Bytes := (ops.map encOp).flatten

/-- `IBatch::reverse()`: the serialized inverse batch. -/
def IBatch.reverse (bt : IBatch) : Bytes := encOps (bt.f.getD [])

/-- `impl TryFrom<&[u8]> for IBatch`: parse a serialized batch.  The source
loops while bytes remain; each iteration consumes at least the type byte,
so fuel bounded by the input length suffices. -/
def readOpsAux : Nat → Bytes → Option (List KvOp)
  | _, [] => some []
  | 0, _ :: _ => none
  | fuel + 1, t :: r =>
    if t = 1 then
      match readLE 2 r with
      | none => none
      | some (kl, r1) =>
        match readBytes kl r1 with
        | none => none
        | some (k, r2) =>
          match readLE 2 r2 with
          | none => none
          | some (vl, r3) =>
            match readBytes vl r3 with
            | none => none
            | some (v, r4) =>
              match readOpsAux fuel r4 with
              | none => none
              | some ops => some (.put k v :: ops)
    else if t = 2 then
      match readLE 2 r with
      | none => none
      | some (kl, r1) =>
        match readBytes kl r1 with
        | none => none
        | some (k, r2) =>
          match readOpsAux fuel r2 with
          | none => none
          | some ops => some (.del k :: ops)
    else none

def readOps (bs : Bytes) : Option (List KvOp) := readOpsAux bs.length bs

/-- Key and value fit the `u16` length prefixes (the source asserts
`len < 0xFFFF` on batch insertion). -/
def OpWF : KvOp → Prop
  | .put k v => k.length < 2 ^ 16 ∧ v.length < 2 ^ 16
  | .del k => k.length < 2 ^ 16

theorem readOpsAux_encOps (ops : List KvOp) (fuel : Nat)
    (hf : ops.length ≤ fuel) (hwf : ∀ op ∈ ops, OpWF op) :
    readOpsAux fuel (encOps ops) = some ops := by
  induction ops generalizing fuel with
  | nil =>
    cases fuel <;> rfl
  | cons op rest ih =>
    cases fuel with
    | zero => simp at hf
    | succ f =>
      have hop := hwf op (List.mem_cons_self _ _)
      have hrest := fun o ho => hwf o (List.mem_cons_of_mem _ ho)
      have hf2 : rest.length ≤ f := by simp at hf; omega
      cases op with
      | put k v =>
        obtain ⟨hk, hv⟩ := hop
        have e1 := fun r' => readLE2 k.length r' hk
        have e2 := fun r' => readBytes_append k r'
        have e3 := fun r' => readLE2 v.length r' hv
        have e4 := fun r' => readBytes_append v r'
        have e5 := ih f hf2 hrest
        simp only [encOps, List.map_cons, List.flatten_cons, encOp,
          List.cons_append, List.append_assoc]
        rw [readOpsAux, if_pos rfl]
        simp only [e1, e2, e3, e4,
          show (List.map encOp rest).flatten = encOps rest from rfl, e5]
      | del k =>
        have e1 := fun r' => readLE2 k.length r' hop
        have e2 := fun r' => readBytes_append k r'
        have e5 := ih f hf2 hrest
        simp only [encOps, List.map_cons, List.flatten_cons, encOp,
          List.cons_append, List.append_assoc]
        rw [readOpsAux, if_neg (by norm_num), if_pos rfl]
        simp only [e1, e2,
          show (List.map encOp rest).flatten = encOps rest from rfl, e5]

theorem length_le_encOps (ops : List KvOp) : ops.length ≤ (encOps ops).length := by
  induction ops with
  | nil => simp [encOps]
  | cons op rest ih =>
    simp only [encOps, List.map_cons, List.flatten_cons, List.length_append,
      List.length_cons]
    have : 1 ≤ (encOp op).length := by
      cases op <;> simp [encOp]
    calc (op :: rest).length = rest.length + 1 := by simp
    _ ≤ (encOps rest).length + (encOp op).length := by
        have := ih
        omega
    _ = (encOp op).length + (encOps rest).length := by omega

theorem readOps_encOps (ops : List KvOp) (hwf : ∀ op ∈ ops, OpWF op) :
    readOps (encOps ops) = some ops :=
  readOpsAux_encOps ops (encOps ops).length (length_le_encOps ops) hwf

/-! ## The segmented block store (`store.rs` `Store`)

Modelled as the byte content of the single active segment file (index 0):
`push` appends and returns the record location, `pull` reads it back.
File rolling at `MAX_FILE_SIZE` only adds capacity and is not reached by
any claim. -/

structure Store where
  data : Bytes
  deriving DecidableEq, Repr

/-- `Store::push`: rejects empty records, appends, returns the location. -/
def Store.push (st : Store) (b : Bytes) : Option (Attr × Store) :=
  if b.length = 0 then none
  else some (⟨0, st.data.length, b.length⟩, ⟨st.data ++ b⟩)

/-- `Store::pull`: read `len` bytes at `off` of file `idx`; a short read
or unknown file is an error. -/
def Store.pull (st : Store) (a : Attr) : Option Bytes :=
  if a.idx = 0 ∧ a.off + a.len ≤ st.data.length then
    some ((st.data.drop a.off).take a.len)
  else none

theorem store_pull_push (st st' : Store) (b : Bytes) (a : Attr)
    (h : st.push b = some (a, st')) : st'.pull a = some b := by
  unfold Store.push at h
  split at h
  · exact absurd h (by simp)
  · rename_i hne
    simp only [Option.some.injEq, Prod.mk.injEq] at h
    obtain ⟨ha, hst⟩ := h
    subst ha
    subst hst
    unfold Store.pull
    rw [if_pos (by simp)]
    simp

theorem store_pull_mono (st st' : Store) (b old : Bytes) (a a' : Attr)
    (h : st.push b = some (a', st')) (hp : st.pull a = some old) :
    st'.pull a = some old := by
  unfold Store.push at h
  split at h
  · exact absurd h (by simp)
  · simp only [Option.some.injEq, Prod.mk.injEq] at h
    obtain ⟨ha, hst⟩ := h
    subst hst
    unfold Store.pull at hp ⊢
    split at hp
    · rename_i hc
      rw [if_pos (by constructor; exact hc.1; simp; omega)]
      simp only [Option.some.injEq] at hp ⊢
      rw [← hp]
      rw [List.drop_append_of_le_length (by omega)]
      rw [List.take_append_of_le_length (by rw [List.length_drop]; omega)]
    · exact absurd hp (by simp)

/-! ## Scripts and the stack VM (`script.rs`) -/

def OP_TYPE : Nat := 0xFF
def OP_FALSE : Nat := 0x90
def OP_TRUE : Nat := 0x91
def OP_NUMBER_1 : Nat := 0xA0
def OP_NUMBER_8 : Nat := 0xA3
def OP_DATA_1 : Nat := 0xB0
def OP_DATA_2 : Nat := 0xB1
def OP_DATA_4 : Nat := 0xB2
def OP_VERIFY : Nat := 0xC0
def OP_EQUAL : Nat := 0xC1
def OP_NOT : Nat := 0xC2
def OP_CHECKSIG : Nat := 0xC3
def OP_HASHER : Nat := 0xC4
def OP_EQUAL_VERIFY : Nat := 0xC5
def OP_CHECKSIG_VERIFY : Nat := 0xC6
def OP_VERIFY_INOUT : Nat := 0xC7
def SCRIPT_TYPE_CB : Nat := 1
def SCRIPT_TYPE_IN : Nat := 2
def SCRIPT_TYPE_OUT : Nat := 3
def MAX_SCRIPT_CB_SIZE : Nat := 128
def MAX_SCRIPT_IN_SIZE : Nat := 2048
def MAX_SCRIPT_OUT_SIZE : Nat := 2048
def MAX_SCRIPT_SIZE : Nat := 4096
def MAX_SCRIPT_OPS : Nat := 256

/-- `Script::get_type`: first byte must be `OP_TYPE`, second is the kind. -/
def Script.get_type (s : Script) : Option Nat :=
  match s with
  | t :: k :: _ => if t = OP_TYPE then some k else none
  | _ => none

/-- `Reader::advance`. -/
def advanceBy (n : Nat) (bs : Bytes) : Option Bytes :=
  if n ≤ bs.length then some (bs.drop n) else none

/-- `Reader::length(size)`: 1 → u8, 2 → u16, 3 → u32. -/
def readLength (n : Nat) (bs : Bytes) : Option (Nat × Bytes) :=
  if n = 1 then readLE 1 bs
  else if n = 2 then readLE 2 bs
  else if n = 3 then readLE 4 bs
  else none

/-- Loop body of `Script::ops`.  Each iteration consumes at least the
opcode byte and the source errors once the count passes
`MAX_SCRIPT_OPS`, so at most 257 iterations run; fuel 258 is never
exhausted. -/
def opsCountAux : Nat → Nat → Bytes → Option Nat
  | 0, _, _ => none
  | _ + 1, _, [] => none
  | fuel + 1, ops, op :: r =>
    let ops := ops + 1
    let step : Option Bytes :=
      if op = OP_TYPE then advanceBy 1 r
      else if OP_NUMBER_1 ≤ op ∧ op ≤ OP_NUMBER_8 then
        advanceBy (2 ^ (op - OP_NUMBER_1)) r
      else if OP_DATA_1 ≤ op ∧ op ≤ OP_DATA_4 then
        match readLength (op - OP_DATA_1 + 1) r with
        | none => none
        | some (l, r1) => advanceBy l r1
      else some r
    match step with
    | none => none
    | some r2 =>
      if ops > MAX_SCRIPT_OPS then none
      else if r2.length = 0 then some ops
      else opsCountAux fuel ops r2

/-- `Script::ops`. -/
def Script.ops (s : Script) : Option Nat :=
  if s.length > MAX_SCRIPT_SIZE then none
  else if s.length = 0 then none
  else opsCountAux 258 0 s

/-- `Script::max_size`. -/
def Script.max_size (s : Script) : Option Nat :=
  match s.get_type with
  | none => none
  | some t =>
    if t = SCRIPT_TYPE_CB then some MAX_SCRIPT_CB_SIZE
    else if t = SCRIPT_TYPE_IN then some MAX_SCRIPT_IN_SIZE
    else if t = SCRIPT_TYPE_OUT then some MAX_SCRIPT_OUT_SIZE
    else none

/-- `Script::check`. -/
def Script.check (s : Script) : Option Unit :=
  if s.length > MAX_SCRIPT_SIZE then none
  else
    match s.max_size with
    | none => none
    | some m =>
      if s.length = 0 ∨ s.length > m then none
      else
        match s.ops with
        | none => none
        | some ops => if ops > MAX_SCRIPT_OPS then none else some ()

/-- Stack element (`script.rs` `Ele`). -/
inductive Ele where
  | bool (b : Bool)
  | number (n : Int)
  | data (d : Bytes)
  deriving DecidableEq, Repr

/-- Signed little-endian read (`Reader::i8/i16/i32/i64`). -/
def readIntLE (n : Nat) (bs : Bytes) : Option (Int × Bytes) :=
  match readLE n bs with
  | none => none
  | some (v, r) =>
    some (if v < 2 ^ (8 * n - 1) then (v : Int) else (v : Int) - 2 ^ (8 * n), r)

/-- `Exector` state: `eles` is the stack with the top first, `typs` the
kind register. -/
structure Exector where
  eles : List Ele
  typs : List Nat
  deriving DecidableEq, Repr

/-- One `Exector::exec` loop iteration on opcode `op`: returns the next
state and the remaining script bytes.

`acc` models `Account::try_from(ele)?.hash()?` (the out-of-scope account
codec and hash used by `OP_HASHER`), `vs` the environment\'s
`verify_sign`. -/
def execOp (acc : Bytes → Option Hasher) (vs : Ele → Option Bool)
    (ex : Exector) (op : Nat) (r : Bytes) : Option (Exector × Bytes) :=
  if op = OP_TYPE then
    match r with
    | [] => none
    | t :: r1 => some ({ ex with typs := ex.typs ++ [t] }, r1)
  else if op = OP_TRUE ∨ op = OP_FALSE then
    some ({ ex with eles := .bool (op = OP_TRUE) :: ex.eles }, r)
  else if op ≤ 0x10 then
    some ({ ex with eles := .number (op : Int) :: ex.eles }, r)
  else if OP_NUMBER_1 ≤ op ∧ op ≤ OP_NUMBER_8 then
    match readIntLE (2 ^ (op - OP_NUMBER_1)) r with
    | none => none
    | some (v, r1) => some ({ ex with eles := .number v :: ex.eles }, r1)
  else if OP_DATA_1 ≤ op ∧ op ≤ OP_DATA_4 then
    match readLength (op - OP_DATA_1 + 1) r with
    | none => none
    | some (l, r1) =>
      match readBytes l r1 with
      | none => none
      | some (d, r2) => some ({ ex with eles := .data d :: ex.eles }, r2)
  else if op = OP_VERIFY then
    match ex.eles with
    | .bool v :: rest => if v then some ({ ex with eles := rest }, r) else none
    | _ => none
  else if op = OP_HASHER then
    match ex.eles with
    | .data d :: _ =>
      match acc d with
      | none => none
      | some hv => some ({ ex with eles := .data (toLE 32 hv) :: ex.eles }, r)
    | _ => none
  else if op = OP_EQUAL ∨ op = OP_EQUAL_VERIFY then
    match ex.eles with
    | l :: rr :: rest =>
      let val : Bool := l = rr
      if op = OP_EQUAL_VERIFY then
        if val then some ({ ex with eles := rest }, r) else none
      else some ({ ex with eles := .bool val :: rest }, r)
    | _ => none
  else if op = OP_NOT then
    match ex.eles with
    | .bool v :: rest => some ({ ex with eles := .bool (!v) :: rest }, r)
    | _ => none
  else if op = OP_CHECKSIG ∨ op = OP_CHECKSIG_VERIFY then
    match ex.eles with
    | e :: rest =>
      match vs e with
      | none => none
      | some val =>
        if op = OP_CHECKSIG_VERIFY then
          if val then some ({ ex with eles := rest }, r) else none
        else some ({ ex with eles := .bool val :: rest }, r)
    | _ => none
  else if op = OP_VERIFY_INOUT then
    if ex.typs = [SCRIPT_TYPE_IN, SCRIPT_TYPE_OUT] then some (ex, r) else none
  else none

/-- The `Exector::exec` loop; at most 257 iterations complete before the
op counter errors, so fuel 258 is never exhausted. -/
def execAux (acc : Bytes → Option Hasher) (vs : Ele → Option Bool) :
    Nat → Nat → Exector → Bytes → Option (Exector × Nat)
  | 0, _, _, _ => none
  | _ + 1, _, _, [] => none
  | fuel + 1, step, ex, op :: r =>
    let step := step + 1
    match execOp acc vs ex op r with
    | none => none
    | some (ex2, r2) =>
      if step > MAX_SCRIPT_OPS then none
      else if r2.length = 0 then some (ex2, step)
      else execAux acc vs fuel step ex2 r2

/-- `Exector::exec`. -/
def exec (acc : Bytes → Option Hasher) (vs : Ele → Option Bool) (s : Script) :
    Option (Exector × Nat) :=
  if s.length > MAX_SCRIPT_SIZE then none
  else if s.length = 0 then none
  else execAux acc vs 258 0 ⟨[], []⟩ s

/-! ## The environment of out-of-scope primitives

Spec §1: the hash primitive, account codecs and signature verification
are consumed as opaque operations. -/

structure Env where
  /-- `Hasher::hash` (double SHA-256), as the 256-bit LE value. -/
  H : Bytes → Hasher
  /-- A `Hasher` is 32 bytes. -/
  Hlt : ∀ bs, H bs < 2 ^ 256
  /-- `Account::from_bytes(d)?.hash()` = `get_address()`. -/
  accountAddr : Bytes → Option Hasher
  /-- `Account::from_bytes(d)?.encode_sign(..)`: the account bytes without
  signatures. -/
  accountEncSign : Bytes → Option Bytes
  /-- `Account::verify_full(msg)` on the account decoded from the given
  bytes. -/
  verifyFull : Bytes → Bytes → Option Bool
  /-- `util::timestamp()`: current wall time. -/
  now : Int
  /-- Modelled from the spec: `consts::MAX_BLOCK_SIZE` is referenced by
  `block.rs` but not defined under `src/`; the spec names the bound
  without a value, so it is a parameter here. -/
  maxBlockSize : Nat

/-- `Script::encode_sign` (`block.rs`): CB/OUT scripts are canonical
already; an IN script is executed (verify hook unreachable) and the
account on top of the stack is re-encoded without signatures. -/
def Script.encodeSign (env : Env) (s : Script) : Option Bytes :=
  match s.get_type with
  | none => none
  | some t =>
    if t = SCRIPT_TYPE_CB ∨ t = SCRIPT_TYPE_OUT then some s
    else if t = SCRIPT_TYPE_IN then
      match exec env.accountAddr (fun _ => none) s with
      | none => none
      | some (ex, ops) =>
        if ops > MAX_SCRIPT_OPS then none
        else
          match ex.eles with
          | .data d :: _ =>
            match env.accountEncSign d with
            | none => none
            | some ab => some (OP_TYPE :: SCRIPT_TYPE_IN :: ab)
          | _ => none
    else none

/-- `TxIn::encode_sign`. -/
def TxIn.encodeSign (env : Env) (i : TxIn) : Option Bytes :=
  match i.script.encodeSign env with
  | none => none
  | some sb => some (encHasher i.out ++ toLE 2 i.idx ++ sb ++ toLE 4 i.seq)

/-- `TxOut::encode_sign`. -/
def TxOut.encodeSign (env : Env) (o : TxOut) : Option Bytes :=
  match o.script.encodeSign env with
  | none => none
  | some sb => some (encI64 o.value ++ sb)

/-- Concatenate the encodings of a list, failing if any element fails. -/
def encSignList (f : α → Option Bytes) : List α → Option Bytes
  | [] => some []
  | a :: as_ =>
    match f a with
    | none => none
    | some b =>
      match encSignList f as_ with
      | none => none
      | some bs => some (b ++ bs)

/-- `Tx::encode_sign`. -/
def Tx.encodeSign (env : Env) (t : Tx) : Option Bytes :=
  match encSignList (TxIn.encodeSign env) t.ins with
  | none => none
  | some ib =>
    match encSignList (TxOut.encodeSign env) t.outs with
    | none => none
    | some ob =>
      some (toLE 4 t.ver ++ toLE 2 t.ins.length ++ ib ++ toLE 2 t.outs.length ++ ob)

/-- `Tx::id`: hash of the canonical signing encoding. -/
def Tx.id (env : Env) (t : Tx) : Option Hasher :=
  match t.encodeSign env with
  | none => none
  | some bs => some (env.H bs)

/-- `Header::id`. -/
def Header.id (env : Env) (h : Header) : Hasher := env.H (encHeader h)

/-- `Block::id`. -/
def Block.id (env : Env) (b : Block) : Hasher := b.header.id env

/-- `TxIn::is_coinbase`. -/
def TxIn.is_coinbase (i : TxIn) : Bool :=
  i.out = 0 ∧ i.idx = 0 ∧ i.script.get_type = some SCRIPT_TYPE_CB

/-- `Tx::is_coinbase`. -/
def Tx.is_coinbase (t : Tx) : Bool :=
  match t.ins with
  | [] => false
  | i :: _ => i.is_coinbase

/-- `TxIn::out_key`: spent outpoint key `out ‖ idx`. -/
def TxIn.out_key (i : TxIn) : Bytes := encHasher i.out ++ toLE 2 i.idx

/-- Modelled from the spec: `Exector::read_binary` is called by
`TxIn::get_address` (`block.rs`) but not defined under `src/`; per spec
§4.E the `OP_DATA_{1,2,4}` opcodes read an unsigned little-endian length
of 1/2/4 bytes and then that many data bytes. -/
def read_binary (op : Nat) (bs : Bytes) : Option (Bytes × Bytes) :=
  if op = OP_DATA_1 ∨ op = OP_DATA_2 ∨ op = OP_DATA_4 then
    match readLength (op - OP_DATA_1 + 1) bs with
    | none => none
    | some (l, r) => readBytes l r
  else none

/-- `TxIn::get_address` (`HasAddress for TxIn`): parse the IN script and
hash the pushed account. -/
def TxIn.get_address (env : Env) (i : TxIn) : Option Hasher :=
  match i.script.check with
  | none => none
  | some _ =>
    match i.script.get_type with
    | none => none
    | some t =>
      if t = SCRIPT_TYPE_IN then
        match i.script with
        | b0 :: b1 :: rest =>
          if b0 = OP_TYPE then
            if b1 = SCRIPT_TYPE_IN then
              match rest with
              | [] => none
              | op :: r2 =>
                match read_binary op r2 with
                | none => none
                | some (d, _) => env.accountAddr d
            else none
          else none
        | _ => none
      else none

/-- `Hasher::with_bytes`: copy into the tail of the 32-byte array
(`inner[32 - len ..] = b`), i.e. short inputs land at the most
significant little-endian positions; longer inputs panic
(`copy_from_slice` length mismatch), modelled as `none`. -/
def hasherWithBytes (b : Bytes) : Option Hasher :=
  if b.length ≤ 32 then some (fromLE (List.replicate (32 - b.length) 0 ++ b))
  else none

/-- `TxOut::get_address` (`HasAddress for TxOut`): parse the fixed OUT
script shape and return the pushed address hash. -/
def TxOut.get_address (o : TxOut) : Option Hasher :=
  match o.script.check with
  | none => none
  | some _ =>
    match o.script.get_type with
    | none => none
    | some t =>
      if t = SCRIPT_TYPE_OUT then
        match o.script with
        | b0 :: b1 :: b2 :: b3 :: b4 :: r =>
          if b0 = OP_TYPE ∧ b1 = SCRIPT_TYPE_OUT ∧ b2 = OP_VERIFY_INOUT
              ∧ b3 = OP_HASHER ∧ b4 = OP_DATA_1 then
            match r with
            | [] => none
            | l :: r1 =>
              match readBytes l r1 with
              | none => none
              | some (d, _) => hasherWithBytes d
          else none
        | _ => none
      else none

/-! ## Merkle tree (`merkle.rs`) -/

/-- `MerkleTree::hash`: combine two node hashes. -/
def merkleHash (env : Env) (h1 h2 : Hasher) : Hasher :=
  env.H (encHasher h1 ++ encHasher h2)

/-- `MerkleTree::tree_width`. -/
def treeWidth (trans h : Nat) : Nat := (trans + 2 ^ h - 1) / 2 ^ h

/-- `MerkleTree::tree_height`: smallest `h` with width 1; for `trans ≥ 1`
the loop ends within `trans` steps, so fuel `trans + 1` is never
exhausted. -/
def treeHeightAux (trans : Nat) : Nat → Nat → Nat
  | 0, h => h
  | fuel + 1, h => if treeWidth trans h > 1 then treeHeightAux trans fuel (h + 1) else h

def treeHeight (trans : Nat) : Nat := treeHeightAux trans (trans + 1) 0

/-- `MerkleTree::calc_hasher` (with `trans = ids.len()`; the source's
`ids[pos]` out-of-bounds panic is `none`). -/
def calcHasher (env : Env) (ids : List Hasher) : Nat → Nat → Option Hasher
  | 0, pos => ids[pos]?
  | height + 1, pos =>
    match calcHasher env ids height (pos * 2) with
    | none => none
    | some left =>
      if pos * 2 + 1 < treeWidth ids.length height then
        match calcHasher env ids height (pos * 2 + 1) with
        | none => none
        | some right => some (merkleHash env left right)
      else some (merkleHash env left left)

/-- `MerkleTree::compute`: `new` (no marked ids, so `build` stores exactly
the root produced by `calc_hasher` with one `false` flag bit) followed by
`extract_root` (which replays those vectors and re-returns that root;
its consistency checks pass by construction).  Net effect: the plain
duplicated-right-sibling Merkle root, failing on an empty list. -/
def merkleCompute (env : Env) (ids : List Hasher) : Option Hasher :=
  if ids.length = 0 then none
  else calcHasher env ids (treeHeight ids.length) 0

/-! ## Monetary constants (`consts.rs`) -/

def COIN : Int := 1000000

def MAX_MONEY : Int := 21000000 * COIN

/-- `consts::is_valid_amount`. -/
def is_valid_amount (v : Int) : Bool := 0 ≤ v ∧ v ≤ MAX_MONEY

def BASE_UTC_UNIX_TIME : Int := 1577836800

def MAX_TX_COUNT : Nat := 0xFFFF

/-! ## Header and transaction checks (`block.rs`) -/

/-- `Header::get_timestamp`: `((ver >> 16) & 0xFFFF) * EPOCH + time`. -/
def Header.get_timestamp (h : Header) : Int :=
  ((h.ver / 2 ^ 16 % 2 ^ 16 : Nat) : Int) * BASE_UTC_UNIX_TIME + (h.time : Int)

/-- `Checker for Header`: timestamp not in the future, merkle set. -/
def Header.check_value (env : Env) (h : Header) : Option Unit :=
  if h.get_timestamp > env.now then none
  else if h.merkle = 0 then none
  else some ()

/-- `Tx::get_size`. -/
def Tx.get_size (t : Tx) : Nat := (encTx t).length

/-- `Block::get_size`. -/
def Block.get_size (b : Block) : Nat := (encBlock b).length

/-- `Checker for TxIn`. -/
def TxIn.check_value (i : TxIn) : Option Unit :=
  if ¬ i.is_coinbase ∧ i.out = 0 then none
  else
    match i.script.get_type with
    | none => none
    | some t =>
      if i.is_coinbase then
        if t ≠ SCRIPT_TYPE_CB then none else i.script.check
      else if t ≠ SCRIPT_TYPE_IN then none
      else i.script.check

/-- `Checker for TxOut`. -/
def TxOut.check_value (o : TxOut) : Option Unit :=
  if ¬ is_valid_amount o.value then none
  else
    match o.script.get_type with
    | none => none
    | some t => if t ≠ SCRIPT_TYPE_OUT then none else o.script.check

/-- The per-output loop of `Tx::check_value`: check each output and keep
the running total in range. -/
def checkOutsSum (env : Env) : List TxOut → Int → Option Int
  | [], acc => some acc
  | o :: os, acc =>
    match o.check_value with
    | none => none
    | some _ =>
      if ¬ is_valid_amount o.value then none
      else
        let acc := acc + o.value
        if ¬ is_valid_amount acc then none else checkOutsSum env os acc

/-- `Checker for Tx`.  The input loop checks each input and rejects a
repeated spent outpoint (`HashSet` insert), i.e. the `out_key`s must be
pairwise distinct. -/
def Tx.check_value (env : Env) (t : Tx) : Option Unit :=
  if t.is_coinbase ∧ t.ins.length ≠ 1 then none
  else if t.ins.length = 0 then none
  else if t.outs.length = 0 then none
  else if ¬ (∀ i ∈ t.ins, i.check_value = some ()) then none
  else if ¬ (t.ins.map TxIn.out_key).Nodup then none
  else
    match checkOutsSum env t.outs 0 with
    | none => none
    | some _ =>
      if t.get_size > env.maxBlockSize then none else some ()

/-- `Block::check_coinbase`. -/
def Block.check_coinbase (b : Block) : Option Unit :=
  if b.txs.length < 1 then none
  else if b.txs.length > MAX_TX_COUNT then none
  else
    match b.txs with
    | [] => none
    | t0 :: _ =>
      if t0.ins.length ≠ 1 then none
      else
        match t0.ins with
        | [] => none
        | i0 :: _ =>
          if i0.script.get_type = some SCRIPT_TYPE_CB then some () else none

/-- All spent outpoint keys of a block, in order. -/
def Block.outKeys (b : Block) : List Bytes :=
  (b.txs.map fun t => t.ins.map TxIn.out_key).flatten

/-- `Block::check_rep_cost_coin`: the `HashSet` insert loop fails exactly
when some spent outpoint key repeats. -/
def Block.check_rep_cost_coin (b : Block) : Option Unit :=
  if b.outKeys.Nodup then some () else none

/-- `Block::compute_merkle`. -/
def Block.compute_merkle (env : Env) (b : Block) : Option Hasher :=
  match b.txs.mapM (Tx.id env) with
  | none => none
  | some ids => merkleCompute env ids

/-- `Checker for Block`. -/
def Block.check_value (env : Env) (b : Block) : Option Unit :=
  match b.header.check_value env with
  | none => none
  | some _ =>
    match b.check_coinbase with
    | none => none
    | some _ =>
      match b.compute_merkle env with
      | none => none
      | some merkle =>
        if merkle ≠ b.header.merkle then none
        else
          match b.check_rep_cost_coin with
          | none => none
          | some _ =>
            if ¬ (∀ t ∈ b.txs, t.check_value env = some ()) then none
            else if (b.txs.filter Tx.is_coinbase).length ≠ 1 then none
            else if b.get_size > env.maxBlockSize then none
            else some ()

/-! ## Configuration (`config.rs`) -/

structure Config where
  pow_limit : Hasher
  genesis : Hasher
  pow_time : Nat
  pow_span : Nat
  halving : Nat
  ver : Nat

/-- `Config::compute_reward`: `50 * COIN >> (h / halving)`, zero from the
64th halving. -/
def Config.compute_reward (c : Config) (h : Nat) : Int :=
  computeReward c.halving h

/-! ## The mempool (`index.rs` `TxPool`)

`byid` models the `HashMap<IKey, Arc<Tx>>` as an association list with
32-byte id keys; `byfee` models the `BTreeMap<i64, Vec<Arc<Tx>>>` as an
association list sorted ascending by fee. -/

structure TxPool where
  byid : List (Bytes × Tx)
  byfee : List (Int × List Tx)
  deriving DecidableEq, Repr

def TxPool.empty : TxPool := ⟨[], []⟩

def assocGet (l : List (Bytes × Tx)) (k : Bytes) : Option Tx :=
  match l with
  | [] => none
  | (k', t) :: rest => if k' = k then some t else assocGet rest k

def assocRemove (l : List (Bytes × Tx)) (k : Bytes) : List (Bytes × Tx) :=
  match l with
  | [] => []
  | (k', t) :: rest => if k' = k then rest else (k', t) :: assocRemove rest k

/-- `BTreeMap` bucket insert for `TxPool::push`: append to the fee's
vector, or insert a fresh sorted entry. -/
def feePut : List (Int × List Tx) → Int → Tx → List (Int × List Tx)
  | [], f, t => [(f, [t])]
  | (f', ts) :: rest, f, t =>
    if f = f' then (f', ts ++ [t]) :: rest
    else if f < f' then (f, [t]) :: (f', ts) :: rest
    else (f', ts) :: feePut rest f t

/-- `TxPool::is_cost_coin`: some pending transaction already spends the
outpoint. -/
def TxPool.is_cost_coin (p : TxPool) (id : Hasher) (idx : Nat) : Bool :=
  p.byid.any fun e => e.2.ins.any fun inv => inv.out = id ∧ inv.idx = idx

/-- `TxPool::check_value`. -/
def TxPool.check_value (env : Env) (p : TxPool) (tx : Tx) : Option Unit :=
  if tx.ins.length = 0 ∨ tx.outs.length = 0 then none
  else if tx.is_coinbase then none
  else
    match tx.id env with
    | none => none
    | some id =>
      if (assocGet p.byid (encHasher id)).isSome then none
      else if tx.ins.any fun inv => p.is_cost_coin inv.out inv.idx then none
      else
        let ofee := (tx.outs.map TxOut.value).sum
        if ¬ is_valid_amount ofee then none else some ()

/-- `TxPool::push`. -/
def TxPool.push (env : Env) (p : TxPool) (tx : Tx) (fee : Int) :
    Option (Hasher × TxPool) :=
  match p.check_value env tx with
  | none => none
  | some _ =>
    match tx.id env with
    | none => none
    | some id =>
      some (id, ⟨p.byid ++ [(encHasher id, tx)], feePut p.byfee fee tx⟩)

/-- `TxPool::remove`: take the transaction out of `byid`, then `retain`
on every fee bucket with the predicate `vtx.id() == id` — which KEEPS
only entries whose id equals the removed id (the source's retain
condition, faithfully). -/
def TxPool.remove (env : Env) (p : TxPool) (id : Hasher) :
    Option (Tx × TxPool) :=
  let key := encHasher id
  match assocGet p.byid key with
  | none => none
  | some tx =>
    let byfee := p.byfee.map fun e =>
      (e.1, e.2.filter fun vtx =>
        match vtx.id env with
        | some tmp => tmp = id
        | none => false)
    some (tx, ⟨assocRemove p.byid key, byfee⟩)

/-! ## The chain indexer (`index.rs` `BlkIndexer`)

The mutable state: the key-value index, the two segment stores and the
mempool.  The LRU block cache is a pure read-through cache consulted only
under the writer lock and is omitted; reads go to the stores. -/

structure ChainState where
  kv : Kv
  blk : Store
  rev : Store
  pool : TxPool
  deriving DecidableEq, Repr

/-- `BlkIndexer::BEST_KEY`. -/
def BEST_KEY : Bytes := "__best__key__".data.map Char.toNat

/-- `CoinAttr::key`: `cpk ‖ tx ‖ idx`. -/
def CoinAttr.key (c : CoinAttr) : Bytes :=
  encHasher c.cpk ++ encHasher c.tx ++ toLE 2 c.idx

/-- `BlkIndexer::best`. -/
def bestGet (st : ChainState) : Option Best :=
  match kvGet st.kv BEST_KEY with
  | none => none
  | some bs =>
    match readBest bs with
    | none => none
    | some (b, _) => some b

/-- `BlkIndexer::attr::<BlkAttr>`. -/
def getBlkAttr (st : ChainState) (k : Bytes) : Option BlkAttr :=
  match kvGet st.kv k with
  | none => none
  | some bs =>
    match readBlkAttr bs with
    | none => none
    | some (a, _) => some a

/-- `BlkIndexer::attr::<TxAttr>`. -/
def getTxAttr (st : ChainState) (k : Bytes) : Option TxAttr :=
  match kvGet st.kv k with
  | none => none
  | some bs =>
    match readTxAttr bs with
    | none => none
    | some (a, _) => some a

/-- Load a block (with its stored attributes) by its 32-byte id key:
attr lookup, segment pull, decode (`BlkIndexer::get`, id branch). -/
def getBlockById (st : ChainState) (k : Bytes) : Option (Block × BlkAttr) :=
  match getBlkAttr st k with
  | none => none
  | some attr =>
    match st.blk.pull attr.blk with
    | none => none
    | some buf =>
      match readBlock buf with
      | none => none
      | some (b, _) => some (b, attr)

/-- `BlkIndexer::get`: a 4-byte key is a height, resolved to the id. -/
def getBlock (st : ChainState) (k : Bytes) : Option (Block × BlkAttr) :=
  if k.length = 4 then
    match kvGet st.kv k with
    | none => none
    | some v =>
      match readHasher v with
      | none => none
      | some (id, _) => getBlockById st (encHasher id)
  else getBlockById st k

/-- `BlkIndexer::get_txin_ref_txout`. -/
def get_txin_ref_txout (st : ChainState) (inv : TxIn) : Option TxOut :=
  match getTxAttr st (encHasher inv.out) with
  | none => none
  | some ta =>
    match getBlockById st (encHasher ta.blk) with
    | none => none
    | some (blk, _) =>
      match blk.txs[ta.idx]? with
      | none => none
      | some tx => tx.outs[inv.idx]?

/-- `BlkIndexer::get_txin_ref_coin`: reconstruct the spent coin from the
referenced block. -/
def get_txin_ref_coin (env : Env) (st : ChainState) (inv : TxIn) :
    Option CoinAttr :=
  match getTxAttr st (encHasher inv.out) with
  | none => none
  | some ta =>
    match getBlockById st (encHasher ta.blk) with
    | none => none
    | some (blk, attr) =>
      match blk.txs[ta.idx]? with
      | none => none
      | some tx =>
        match tx.outs[inv.idx]? with
        | none => none
        | some outv =>
          match outv.get_address with
          | none => none
          | some cpk =>
            match tx.id env with
            | none => none
            | some txid =>
              some ⟨cpk, txid, inv.idx,
                outv.value,
                if tx.is_coinbase then COIN_ATTR_FLAGS_COINBASE else 0,
                attr.hhv⟩

/-- `BlkIndexer::get_coin`: look the coin up in the index and fill the
key fields. -/
def get_coin (st : ChainState) (acc tx : Hasher) (idx : Nat) : Option CoinAttr :=
  let key := encHasher acc ++ encHasher tx ++ toLE 2 idx
  match kvGet st.kv key with
  | none => none
  | some bs =>
    match readCoinAttr bs with
    | none => none
    | some (cv, _) => some { cv with cpk := acc, tx := tx, idx := idx }

/-- `LinkExectorCache::new`: version, outs digest, refs digest. -/
def linkCacheNew (env : Env) (t : Tx) : Option (Nat × Hasher × Hasher) :=
  match encSignList (TxOut.encodeSign env) t.outs with
  | none => none
  | some outsB =>
    let refsB := (t.ins.map fun i => encHasher i.out ++ toLE 2 i.idx).flatten
    some (t.ver, env.H outsB, env.H refsB)

/-- `TxSigner::get_sign_bytes`: the per-input signing message. -/
def get_sign_bytes (env : Env) (cache : Nat × Hasher × Hasher)
    (inv : TxIn) (outv : TxOut) : Option Bytes :=
  match inv.encodeSign env with
  | none => none
  | some ib =>
    match outv.encodeSign env with
    | none => none
    | some ob =>
      some (toLE 4 cache.1 ++ encHasher cache.2.2 ++ ib ++ ob ++ encHasher cache.2.1)

/-- The per-input loop of `BlkIndexer::check_tx_sign`: execute the
concatenated input‖output scripts under the `LinkExectorEnv` whose
`verify_sign` is `FullSigner::verify_tx` = `Account::verify_full` on the
signing message. -/
def checkTxSignIns (env : Env) (st : ChainState) (cache : Nat × Hasher × Hasher) :
    List TxIn → Option Unit
  | [] => some ()
  | inv :: rest =>
    if inv.is_coinbase then checkTxSignIns env st cache rest
    else
      match get_txin_ref_txout st inv with
      | none => none
      | some outv =>
        let vs : Ele → Option Bool := fun ele =>
          match ele with
          | .data d =>
            match get_sign_bytes env cache inv outv with
            | none => none
            | some msg => env.verifyFull d msg
          | _ => none
        match exec env.accountAddr vs (inv.script ++ outv.script) with
        | none => none
        | some _ => checkTxSignIns env st cache rest

/-- `BlkIndexer::check_tx_sign`. -/
def check_tx_sign (env : Env) (st : ChainState) (t : Tx) : Option Unit :=
  match linkCacheNew env t with
  | none => none
  | some cache => checkTxSignIns env st cache t.ins

/-- The input loop of `BlkIndexer::check_tx_amount`: resolve every spent
coin, require matching addresses and values and maturity, and sum the
spent values. -/
def sumInsChecked (env : Env) (st : ChainState) (height : Nat) :
    List TxIn → Int → Option Int
  | [], acc => some acc
  | inv :: rest, acc =>
    if inv.is_coinbase then sumInsChecked env st height rest acc
    else
      match inv.get_address env with
      | none => none
      | some addr =>
        match get_txin_ref_txout st inv with
        | none => none
        | some outv =>
          match outv.get_address with
          | none => none
          | some oaddr =>
            if addr ≠ oaddr then none
            else
              match get_coin st addr inv.out inv.idx with
              | none => none
              | some coin =>
                if addr ≠ coin.cpk then none
                else if outv.value ≠ coin.value then none
                else if ¬ coin.is_valid height then none
                else sumInsChecked env st height rest (acc + coin.value)

/-- The output loop of `BlkIndexer::check_tx_amount`: positive in-range
values, split into coinbase output total and plain output total. -/
def sumOutsSplit (iscb : Bool) : List TxOut → Int → Int → Option (Int × Int)
  | [], ofee, cfee => some (ofee, cfee)
  | o :: os, ofee, cfee =>
    if ¬ is_valid_amount o.value then none
    else if o.value = 0 then none
    else if iscb then sumOutsSplit iscb os ofee (cfee + o.value)
    else sumOutsSplit iscb os (ofee + o.value) cfee

/-- `BlkIndexer::check_tx_amount`: returns `(tfee, cfee)`. -/
def check_tx_amount (env : Env) (st : ChainState) (height : Nat) (t : Tx) :
    Option (Int × Int) :=
  match sumInsChecked env st height t.ins 0 with
  | none => none
  | some ifee =>
    match sumOutsSplit t.is_coinbase t.outs 0 0 with
    | none => none
    | some (ofee, cfee) =>
      if ¬ is_valid_amount ifee ∨ ¬ is_valid_amount ofee then none
      else if ofee > ifee then none
      else if ¬ is_valid_amount (ifee - ofee) then none
      else if ¬ is_valid_amount cfee then none
      else some (ifee - ofee, cfee)

/-- The transaction loop of `BlkIndexer::check_block_amount`. -/
def checkBlockTxs (env : Env) (st : ChainState) (height : Nat) :
    List Tx → Int → Int → Option (Int × Int)
  | [], tfee, cfee => some (tfee, cfee)
  | t :: ts, tfee, cfee =>
    match check_tx_sign env st t with
    | none => none
    | some _ =>
      match check_tx_amount env st height t with
      | none => none
      | some (tfeev, cfeev) =>
        if ¬ is_valid_amount (tfee + tfeev) then none
        else if ¬ is_valid_amount (cfee + cfeev) then none
        else checkBlockTxs env st height ts (tfee + tfeev) (cfee + cfeev)

/-- `BlkIndexer::check_block_amount`: coinbase output total within
subsidy plus fees. -/
def check_block_amount (env : Env) (conf : Config) (st : ChainState)
    (height : Nat) (b : Block) : Option Unit :=
  if ¬ is_valid_amount (conf.compute_reward height) then none
  else
    match checkBlockTxs env st height b.txs 0 0 with
    | none => none
    | some (tfee, cfee) =>
      if ¬ is_valid_amount (conf.compute_reward height) then none
      else if cfee > conf.compute_reward height + tfee then none
      else some ()

/-- `BlkIndexer::next_bits`.  Note the retarget branch reads the
height key `next - pow_span` (whose stored value is the 32-byte block id)
and decodes it as a `BlkAttr`. -/
def next_bits (conf : Config) (st : ChainState) : Option Nat :=
  match bestGet st with
  | none => some (compact conf.pow_limit)
  | some best =>
    if best.height = 0 then some (compact conf.pow_limit)
    else
      match getBlkAttr st (encHasher best.id) with
      | none => none
      | some last =>
        let next := best.next
        if next % conf.pow_span ≠ 0 then some last.bhv.bits
        else
          let prev := next - conf.pow_span
          match getBlkAttr st (toLE 4 prev) with
          | none => none
          | some prevAttr =>
            computeBits conf.pow_limit conf.pow_time last.bhv.get_timestamp
              prevAttr.bhv.get_timestamp last.bhv.bits

/-- `BlkIndexer::write_tx_index`: delete every spent coin (recording the
reconstructed old value for undo) and create a coin per output
(`IBatch::put_attr`, modelled from the spec: put at `HasKey::key` with
the serialized value record; `put_attr` itself is not under `src/`). -/
def writeTxIndexIns (env : Env) (st : ChainState) (height : Nat) :
    List TxIn → IBatch → Option IBatch
  | [], batch => some batch
  | inv :: rest, batch =>
    if inv.is_coinbase then writeTxIndexIns env st height rest batch
    else
      match get_txin_ref_coin env st inv with
      | none => none
      | some coin =>
        if ¬ coin.is_valid height then none
        else writeTxIndexIns env st height rest
          (batch.delSome coin.key (encCoinAttr coin))

def writeTxIndexOuts (env : Env) (height : Nat) (txid : Hasher) (flags : Nat) :
    List TxOut → Nat → IBatch → Option IBatch
  | [], _, batch => some batch
  | outv :: rest, i, batch =>
    match outv.get_address with
    | none => none
    | some cpk =>
      writeTxIndexOuts env height txid flags rest (i + 1)
        (batch.put (CoinAttr.key ⟨cpk, txid, i, outv.value, flags, height⟩)
          (encCoinAttr ⟨cpk, txid, i, outv.value, flags, height⟩))

def write_tx_index (env : Env) (st : ChainState) (best : Best) (t : Tx)
    (batch : IBatch) : Option IBatch :=
  match writeTxIndexIns env st best.height t.ins batch with
  | none => none
  | some batch =>
    match t.id env with
    | none => none
    | some txid =>
      writeTxIndexOuts env best.height txid
        (if t.is_coinbase then COIN_ATTR_FLAGS_COINBASE else 0) t.outs 0 batch

/-- The per-transaction loop of `BlkIndexer::link`: a transaction id
already present in the index is rejected; otherwise its `TxAttr` and its
coin updates are batched. -/
def linkTxs (env : Env) (st : ChainState) (next : Best) (id : Hasher) :
    List Tx → Nat → IBatch → Option IBatch
  | [], _, batch => some batch
  | t :: ts, i, batch =>
    match t.id env with
    | none => none
    | some txid =>
      if kvHas st.kv (encHasher txid) then none
      else
        match write_tx_index env st next t
            (batch.put (encHasher txid) (encTxAttr ⟨id, i⟩)) with
        | none => none
        | some batch => linkTxs env st next id ts (i + 1) batch

/-- The `best()` match of `BlkIndexer::link`: either extend the current
tip (with the inverse restoring the old `Best`), or accept the configured
genesis block at height 0. -/
def linkBest (env : Env) (conf : Config) (st : ChainState) (blk : Block)
    (id : Hasher) (batch : IBatch) : Option (Best × IBatch) :=
  match bestGet st with
  | some top =>
    match getBlock st (encHasher top.id) with
    | none => none
    | some (prevBlk, _) =>
      if blk.header.prev ≠ prevBlk.id env then none
      else
        some ((⟨id, top.next⟩ : Best),
          batch.set BEST_KEY (encBest (⟨id, top.next⟩ : Best)) (encBest top))
  | none =>
    if id ≠ conf.genesis then none
    else
      some ((⟨id, 0⟩ : Best), batch.put BEST_KEY (encBest (⟨id, 0⟩ : Best)))

/-- The write phase of `BlkIndexer::link`: monetary/signature checks, the
height→id and per-transaction entries, the two segment appends, the
`BlkAttr` entry (added after `reverse()` was taken, hence not undone by
`pop`), and the single atomic commit. -/
def linkCommit (env : Env) (conf : Config) (st : ChainState) (blk : Block)
    (next : Best) (batch : IBatch) : Option (Best × ChainState) :=
  match check_block_amount env conf st next.height blk with
  | none => none
  | some _ =>
    match linkTxs env st next (blk.id env) blk.txs 0
        (batch.put (toLE 4 next.height) (encHasher next.id)) with
    | none => none
    | some batch =>
      match st.blk.push (encBlock blk) with
      | none => none
      | some (blkLoc, blkStore) =>
        match st.rev.push batch.reverse with
        | none => none
        | some (revLoc, revStore) =>
          some (next,
            { st with
              kv := applyOps st.kv
                (batch.put (encHasher (blk.id env))
                  (encBlkAttr ⟨blk.header, next.height, blkLoc, revLoc⟩)).b,
              blk := blkStore,
              rev := revStore })

/-- `BlkIndexer::link`. -/
def link (env : Env) (conf : Config) (st : ChainState) (blk : Block) :
    Option (Best × ChainState) :=
  match blk.check_value env with
  | none => none
  | some _ =>
    if kvHas st.kv (encHasher (blk.id env)) then none
    else if ¬ verifyPow (blk.id env) conf.pow_limit blk.header.bits then none
    else
      match next_bits conf st with
      | none => none
      | some bits =>
        if blk.header.bits ≠ bits then none
        else
          match linkBest env conf st blk (blk.id env) (IBatch.new true) with
          | none => none
          | some (next, batch) => linkCommit env conf st blk next batch

/-- `BlkIndexer::pop`. -/
def pop (env : Env) (conf : Config) (st : ChainState) :
    Option (Block × ChainState) :=
  match bestGet st with
  | none => none
  | some best =>
    if best.id = conf.genesis then none
    else
      match getBlkAttr st (encHasher best.id) with
      | none => none
      | some attr =>
        match st.blk.pull attr.blk with
        | none => none
        | some buf =>
          match readBlock buf with
          | none => none
          | some (blk, _) =>
            match st.rev.pull attr.rev with
            | none => none
            | some rbuf =>
              match readOps rbuf with
              | none => none
              | some ops =>
                some (blk,
                  { st with
                    kv := applyOps st.kv (ops ++ [.del (encHasher best.id)]) })

/-- The state-transformer view of `Chain::link`: an erroring link leaves
the state untouched (the only key-value write in `link` is the single
final batch commit). -/
def linkRun (env : Env) (conf : Config) (st : ChainState) (blk : Block) :
    ChainState × Option Best :=
  match link env conf st blk with
  | none => (st, none)
  | some (best, st2) => (st2, some best)

/-! ## Anatomy of a successful `link` -/

theorem linkTxs_fresh (env : Env) (st : ChainState) (next : Best) (id : Hasher)
    (ts : List Tx) (i : Nat) (batch batch2 : IBatch)
    (h : linkTxs env st next id ts i batch = some batch2) :
    ∀ t ∈ ts, ∃ txid, Tx.id env t = some txid
      ∧ kvHas st.kv (encHasher txid) = false := by
  induction ts generalizing i batch with
  | nil => intro t ht; simp at ht
  | cons t0 ts ih =>
    intro t ht
    rw [linkTxs] at h
    split at h
    · exact Option.noConfusion h
    · rename_i txid hid
      split at h
      · exact Option.noConfusion h
      · rename_i hfresh
        split at h
        · exact Option.noConfusion h
        · rename_i batch3 hw
          rcases List.mem_cons.1 ht with he | he
          · subst he
            exact ⟨txid, hid, by simpa using hfresh⟩
          · exact ih (i + 1) _ h t he

theorem link_some_parts (env : Env) (conf : Config) (st : ChainState)
    (b : Block) (best : Best) (st2 : ChainState)
    (h : link env conf st b = some (best, st2)) :
    Block.check_value env b = some ()
    ∧ kvHas st.kv (encHasher (b.id env)) = false
    ∧ verifyPow (b.id env) conf.pow_limit b.header.bits = true
    ∧ next_bits conf st = some b.header.bits
    ∧ ∃ next batch,
        linkBest env conf st b (b.id env) (IBatch.new true) = some (next, batch)
        ∧ linkCommit env conf st b next batch = some (best, st2) := by
  unfold link at h
  split at h
  · exact Option.noConfusion h
  · rename_i u hcv
    split at h
    · exact Option.noConfusion h
    · rename_i hhas
      split at h
      · exact Option.noConfusion h
      · rename_i hpow
        split at h
        · exact Option.noConfusion h
        · rename_i bits hbits
          split at h
          · exact Option.noConfusion h
          · rename_i hne
            split at h
            · exact Option.noConfusion h
            · rename_i next1 batch1 hb
              refine ⟨by rw [hcv], by simpa using hhas, by simpa using hpow,
                ?_, next1, batch1, hb, h⟩
              rw [hbits]
              simp only [ne_eq, not_not] at hne
              rw [hne]

theorem linkBest_some_parts (env : Env) (conf : Config) (st : ChainState)
    (b : Block) (id : Hasher) (batch batch2 : IBatch) (next : Best)
    (h : linkBest env conf st b id batch = some (next, batch2)) :
    (∃ top prevBlk pa, bestGet st = some top
      ∧ getBlock st (encHasher top.id) = some (prevBlk, pa)
      ∧ b.header.prev = prevBlk.id env
      ∧ next = ⟨id, top.next⟩
      ∧ batch2 = batch.set BEST_KEY (encBest next) (encBest top))
    ∨ (bestGet st = none ∧ id = conf.genesis ∧ next = ⟨id, 0⟩
      ∧ batch2 = batch.put BEST_KEY (encBest next)) := by
  unfold linkBest at h
  split at h
  · rename_i top htop
    split at h
    · exact Option.noConfusion h
    · rename_i prevBlk pa hget
      split at h
      · exact Option.noConfusion h
      · rename_i hprev
        simp only [Option.some.injEq, Prod.mk.injEq] at h
        refine Or.inl ⟨top, prevBlk, pa, htop, hget, by simpa using hprev,
          h.1.symm, ?_⟩
        rw [← h.2, ← h.1]
  · rename_i htop
    split at h
    · exact Option.noConfusion h
    · rename_i hgen
      simp only [Option.some.injEq, Prod.mk.injEq] at h
      refine Or.inr ⟨htop, by simpa using hgen, h.1.symm, ?_⟩
      rw [← h.2, ← h.1]

theorem linkCommit_some_parts (env : Env) (conf : Config) (st : ChainState)
    (b : Block) (next : Best) (batch : IBatch) (best : Best) (st2 : ChainState)
    (h : linkCommit env conf st b next batch = some (best, st2)) :
    check_block_amount env conf st next.height b = some ()
    ∧ ∃ batch1 blkLoc blkStore revLoc revStore,
      linkTxs env st next (b.id env) b.txs 0
          (batch.put (toLE 4 next.height) (encHasher next.id)) = some batch1
      ∧ st.blk.push (encBlock b) = some (blkLoc, blkStore)
      ∧ st.rev.push batch1.reverse = some (revLoc, revStore)
      ∧ best = next
      ∧ st2 = { st with
          kv := applyOps st.kv
            (batch1.put (encHasher (b.id env))
              (encBlkAttr ⟨b.header, next.height, blkLoc, revLoc⟩)).b,
          blk := blkStore,
          rev := revStore } := by
  unfold linkCommit at h
  split at h
  · exact Option.noConfusion h
  · rename_i u hamt
    split at h
    · exact Option.noConfusion h
    · rename_i batch1 htxs
      split at h
      · exact Option.noConfusion h
      · rename_i blkLoc blkStore hpush1
        split at h
        · exact Option.noConfusion h
        · rename_i revLoc revStore hpush2
          simp only [Option.some.injEq, Prod.mk.injEq] at h
          exact ⟨by rw [hamt], batch1, blkLoc, blkStore, revLoc, revStore,
            htxs, hpush1, hpush2, h.1.symm, h.2.symm⟩

/-- C2: Duplicate-outpoint rejection with atomicity: a block containing
two inputs that reference the same outpoint (same referenced transaction
id and output index) is rejected by `link`, and every erroring `link`
performs no write to the key-value index (the state-transformer view
returns the state unchanged: the only write in `link` is the single
final batch commit on the success path). -/
theorem c2_duplicate_outpoint (env : Env) (conf : Config) (st : ChainState)
    (b : Block)
    (hdup : ¬ ((b.txs.map fun t => t.ins.map fun i => (i.out, i.idx)).flatten).Nodup) :
    link env conf st b = none
    ∧ ∀ b2, link env conf st b2 = none → linkRun env conf st b2 = (st, none) := by
  have hkeys : ¬ (Block.outKeys b).Nodup := by
    intro hnd
    apply hdup
    have hfun : ((List.map fun p : Hasher × Nat => encHasher p.1 ++ toLE 2 p.2) ∘
          fun t : Tx => t.ins.map fun i => (i.out, i.idx))
        = fun t : Tx => t.ins.map TxIn.out_key := by
      funext t
      simp only [Function.comp, List.map_map]
      rfl
    have he : Block.outKeys b
        = ((b.txs.map fun t => t.ins.map fun i => (i.out, i.idx)).flatten).map
          (fun p => encHasher p.1 ++ toLE 2 p.2) := by
      unfold Block.outKeys
      rw [List.map_flatten, List.map_map, hfun]
    rw [he] at hnd
    exact hnd.of_map
  have hcv : Block.check_value env b = none := by
    unfold Block.check_value
    cases b.header.check_value env with
    | none => rfl
    | some u1 =>
      cases b.check_coinbase with
      | none => rfl
      | some u2 =>
        cases b.compute_merkle env with
        | none => rfl
        | some m =>
          simp only []
          split
          · rfl
          · rw [Block.check_rep_cost_coin, if_neg hkeys]
  constructor
  · unfold link
    rw [hcv]
  · intro b2 h2
    unfold linkRun
    rw [h2]

/-- C10: chain-wide duplicate transactions are rejected: if some
transaction of the candidate block has an id that is already a key of
the key-value index (a confirmed transaction, hence with a non-empty
stored record), `link` errors; and an erroring link has written nothing
(state-transformer view unchanged). -/
theorem c10_duplicate_txid (env : Env) (conf : Config) (st : ChainState)
    (b : Block) (t : Tx) (txid : Hasher) (v : Bytes)
    (ht : t ∈ b.txs) (hid : Tx.id env t = some txid)
    (hv : kvGet st.kv (encHasher txid) = some v) (hvne : v.length ≠ 0) :
    link env conf st b = none
    ∧ ∀ b2, link env conf st b2 = none → linkRun env conf st b2 = (st, none) := by
  constructor
  · cases hl : link env conf st b with
    | none => rfl
    | some pr =>
      obtain ⟨_, _, _, _, next, batch, hbest, hcommit⟩ :=
        link_some_parts env conf st b pr.1 pr.2 (by rw [← hl])
      obtain ⟨_, batch1, _, _, _, _, htxs, _⟩ :=
        linkCommit_some_parts env conf st b next batch pr.1 pr.2 hcommit
      obtain ⟨txid2, hid2, hfresh⟩ :=
        linkTxs_fresh env st next (b.id env) b.txs 0 _ batch1 htxs t ht
      rw [hid] at hid2
      cases hid2
      have hfalse : decide (v.length > 0) = false := by
        rw [← hfresh]
        unfold kvHas
        rw [hv]
      have hle := of_decide_eq_false hfalse
      omega
  · intro b2 h2
    unfold linkRun
    rw [h2]

/-! ## Concrete data for the link rejection witnesses -/

/-- A concrete environment with a constant hash, for evaluating `link`. -/
def wEnvL : Env :=
  { H := fun _ => 1,
    Hlt := fun _ => by norm_num,
    accountAddr := fun _ => none,
    accountEncSign := fun _ => none,
    verifyFull := fun _ _ => none,
    now := 1700000000,
    maxBlockSize := 1000000 }

def wConfL : Config := ⟨2 ^ 255, 7, 14, 2016, 210000, 1⟩

/-- A state whose key-value index already holds the (non-empty) record of
the transaction with id 1. -/
def wStL : ChainState := ⟨[(encHasher 1, [1])], ⟨[]⟩, ⟨[]⟩, TxPool.empty⟩

/-- A coinbase-typed transaction; under `wEnvL` its id is 1. -/
def wTxCb : Tx := ⟨1, [⟨0, 0, [0xFF, 1], 0⟩], []⟩

/-- A block with two inputs spending the same outpoint `(5, 7)`. -/
def wBlkC2 : Block :=
  ⟨⟨1, 0, 0, 0, 0, 0⟩, [⟨1, [⟨5, 7, [0xFF, 2], 0⟩, ⟨5, 7, [0xFF, 2], 0⟩], []⟩]⟩

/-- A block carrying `wTxCb`, whose id collides with the stored record. -/
def wBlkC10 : Block := ⟨⟨1, 0, 0, 0, 0, 0⟩, [wTxCb]⟩

/-- Concrete instantiation of the duplicate-outpoint rejection. -/
theorem c2_duplicate_outpoint_witness :
    (¬ ((wBlkC2.txs.map fun t => t.ins.map fun i => (i.out, i.idx)).flatten).Nodup)
    ∧ link wEnvL wConfL wStL wBlkC2 = none :=
  ⟨by decide, (c2_duplicate_outpoint wEnvL wConfL wStL wBlkC2 (by decide)).1⟩

/-- Concrete instantiation of the chain-wide duplicate-txid rejection. -/
theorem c10_duplicate_txid_witness :
    wTxCb ∈ wBlkC10.txs
    ∧ Tx.id wEnvL wTxCb = some 1
    ∧ kvGet wStL.kv (encHasher 1) = some [1]
    ∧ ([1] : Bytes).length ≠ 0
    ∧ link wEnvL wConfL wStL wBlkC10 = none :=
  ⟨List.mem_cons_self _ _, rfl, rfl, by decide,
    (c10_duplicate_txid wEnvL wConfL wStL wBlkC10 wTxCb 1 [1]
      (List.mem_cons_self _ _) rfl rfl (by decide)).1⟩

/-! ## A concrete one-block extension that `link` accepts

A tip `wBlkB1` at height 1 (id 6) and a valid coinbase-only block
`wBlkB2` (id 9, transaction id 8) extending it at height 2, used to
instantiate the link/pop theorems. -/

def wHdrB1 : Header := ⟨65537, 5, 1, 0, 0x207fffff, 0⟩

def wBlkB1 : Block := ⟨wHdrB1, []⟩

def wOutScriptB : Script :=
  [0xFF, 3, 0xC7, 0xC4, 0xB0, 32] ++ toLE 32 2 ++ [0xC5, 0xC6]

def wTxB2 : Tx := ⟨1, [⟨0, 0, [0xFF, 1, 0], 0⟩], [⟨50000000, wOutScriptB⟩]⟩

def wHdrB2 : Header := ⟨65537, 6, 8, 0, 0x207fffff, 0⟩

def wBlkB2 : Block := ⟨wHdrB2, [wTxB2]⟩

/-- The canonical signing bytes of `wTxB2`. -/
def wTxB2SignBytes : Bytes :=
  toLE 4 1 ++ toLE 2 1
    ++ (encHasher 0 ++ toLE 2 0 ++ [0xFF, 1, 0] ++ toLE 4 0)
    ++ toLE 2 1 ++ (encI64 50000000 ++ wOutScriptB)

/-- Hash environment realizing the ids of the concrete chain. -/
def wEnvB : Env :=
  { H := fun bs =>
      if bs = encHeader wHdrB1 then 6
      else if bs = encHeader wHdrB2 then 9
      else if bs = wTxB2SignBytes then 8
      else 1,
    Hlt := fun bs => by dsimp only; split_ifs <;> norm_num,
    accountAddr := fun _ => none,
    accountEncSign := fun _ => none,
    verifyFull := fun _ _ => none,
    now := 1700000000,
    maxBlockSize := 1000000 }

def wConfB : Config := ⟨0x7fffff * 2 ^ 232, 5, 14, 2016, 210000, 1⟩

def wAttrB1 : BlkAttr :=
  ⟨wHdrB1, 1, ⟨0, 0, (encBlock wBlkB1).length⟩, ⟨0, 0, 0⟩⟩

/-- The mempool already holding the transaction of `wBlkB2`. -/
def wPoolB : TxPool := ⟨[(encHasher 8, wTxB2)], [(0, [wTxB2])]⟩

def wStB : ChainState :=
  ⟨[(encHasher 6, encBlkAttr wAttrB1), (BEST_KEY, encBest ⟨6, 1⟩)],
   ⟨encBlock wBlkB1⟩, ⟨[]⟩, wPoolB⟩

/-! ## Batch replay: last-op-wins and undo -/

def opKey : KvOp → Bytes
  | .put k _ => k
  | .del k => k

theorem applyOps_append (kv : Kv) (a c : List KvOp) :
    applyOps kv (a ++ c) = applyOps (applyOps kv a) c :=
  List.foldl_append _ _ _ _

theorem applyOp_sorted (kv : Kv) (op : KvOp) (hs : KvSorted kv) :
    KvSorted (applyOp kv op) := by
  cases op with
  | put k v => exact kvPut_sorted kv k v hs
  | del k => exact kvDel_sorted kv k hs

theorem applyOps_sorted (kv : Kv) (ops : List KvOp) (hs : KvSorted kv) :
    KvSorted (applyOps kv ops) := by
  induction ops generalizing kv with
  | nil => exact hs
  | cons op rest ih => exact ih (applyOp kv op) (applyOp_sorted kv op hs)

theorem kvGet_applyOp_ne (kv : Kv) (op : KvOp) (k : Bytes) (hs : KvSorted kv)
    (hne : opKey op ≠ k) : kvGet (applyOp kv op) k = kvGet kv k := by
  cases op with
  | put k2 v =>
    rw [applyOp, kvGet_put kv k2 v k hs, if_neg fun hh => hne hh.symm]
  | del k2 =>
    rw [applyOp, kvGet_del kv k2 k hs, if_neg fun hh => hne hh.symm]

/-- Replaying a batch: the last operation touching a key wins. -/
theorem kvGet_applyOps (kv : Kv) (ops : List KvOp) (k : Bytes)
    (hs : KvSorted kv) :
    kvGet (applyOps kv ops) k =
      match (ops.filter fun op => opKey op = k).getLast? with
      | none => kvGet kv k
      | some (.put _ v) => some v
      | some (.del _) => none := by
  induction ops using List.reverseRecOn with
  | nil => rfl
  | append_singleton ops op ih =>
    rw [applyOps_append, List.filter_append]
    by_cases hk : opKey op = k
    · have hf : [op].filter (fun op => opKey op = k) = [op] := by
        simp [List.filter, hk]
      rw [hf, List.getLast?_concat]
      cases op with
      | put k2 v =>
        have hk2 : k2 = k := hk
        subst hk2
        have h1 : applyOps (applyOps kv ops) [KvOp.put k2 v]
            = kvPut (applyOps kv ops) k2 v := rfl
        rw [h1, kvGet_put _ k2 v k2 (applyOps_sorted kv ops hs), if_pos rfl]
      | del k2 =>
        have hk2 : k2 = k := hk
        subst hk2
        have h1 : applyOps (applyOps kv ops) [KvOp.del k2]
            = kvDel (applyOps kv ops) k2 := rfl
        rw [h1, kvGet_del _ k2 k2 (applyOps_sorted kv ops hs), if_pos rfl]
    · have hf : [op].filter (fun op => opKey op = k) = [] := by
        simp [List.filter, hk]
      rw [hf, List.append_nil]
      have h1 : applyOps (applyOps kv ops) [op] = applyOp (applyOps kv ops) op := by
        simp [applyOps]
      rw [h1, kvGet_applyOp_ne _ op k (applyOps_sorted kv ops hs) hk]
      exact ih

theorem kvGet_applyOps_frame (kv : Kv) (ops : List KvOp) (k : Bytes)
    (hs : KvSorted kv) (h : ∀ op ∈ ops, opKey op ≠ k) :
    kvGet (applyOps kv ops) k = kvGet kv k := by
  rw [kvGet_applyOps kv ops k hs]
  have hf : ops.filter (fun op => opKey op = k) = [] := by
    rw [List.filter_eq_nil_iff]
    intro op hm
    simp [h op hm]
  rw [hf]
  rfl

/-- An inverse operation that re-establishes the original content of its
key. -/
def undoes (kv : Kv) : KvOp → Prop
  | .put k v => kvGet kv k = some v
  | .del k => kvGet kv k = none

/-- Replaying a forward batch followed by an inverse section restores the
store, provided every forward key is covered by some inverse operation
and every inverse operation restores the original content of its key. -/
theorem applyOps_restore (kv : Kv) (hs : KvSorted kv) (fwd inv : List KvOp)
    (hcover : ∀ op ∈ fwd, ∃ op2 ∈ inv, opKey op2 = opKey op)
    (hundo : ∀ op ∈ inv, undoes kv op) :
    applyOps kv (fwd ++ inv) = kv := by
  apply kvExt _ kv (applyOps_sorted _ _ hs) hs
  intro k
  rw [kvGet_applyOps _ _ k hs, List.filter_append]
  rcases hl : (inv.filter fun op => opKey op = k).getLast? with _ | op2
  · have hinv : inv.filter (fun op => opKey op = k) = [] := by
      cases hfi : inv.filter fun op => opKey op = k with
      | nil => rfl
      | cons a l =>
        rw [hfi] at hl
        simp at hl
    have hfwd : fwd.filter (fun op => opKey op = k) = [] := by
      rw [List.filter_eq_nil_iff]
      intro op hm hk
      obtain ⟨op2, hm2, hk2⟩ := hcover op hm
      have : op2 ∈ inv.filter fun op => opKey op = k := by
        rw [List.mem_filter]
        refine ⟨hm2, ?_⟩
        simp only [decide_eq_true_eq]
        rw [hk2]
        exact of_decide_eq_true hk
      rw [hinv] at this
      simp at this
    rw [hfwd, hinv]
    rfl
  · have hne : inv.filter (fun op => opKey op = k) ≠ [] := by
      intro he
      rw [he] at hl
      simp at hl
    rw [List.getLast?_append_of_ne_nil _ hne, hl]
    have hm2 : op2 ∈ inv.filter fun op => opKey op = k :=
      List.mem_of_getLast?_eq_some hl
    rw [List.mem_filter] at hm2
    have hu := hundo op2 hm2.1
    have hk2 : opKey op2 = k := by
      have := hm2.2
      simpa using this
    cases op2 with
    | put k2 v =>
      have : kvGet kv k2 = some v := hu
      rw [← hk2]
      exact this.symm
    | del k2 =>
      have : kvGet kv k2 = none := hu
      rw [← hk2]
      exact this.symm

/-! ## Forward/inverse deltas of the index-writing loops -/

theorem kvGet_none_of_kvHas_false (kv : Kv) (k : Bytes)
    (hvals : ∀ p ∈ kv, p.2.length ≠ 0) (h : kvHas kv k = false) :
    kvGet kv k = none := by
  cases hg : kvGet kv k with
  | none => rfl
  | some v =>
    unfold kvHas at h
    rw [hg] at h
    have hm := kvGet_mem hg
    have hv := hvals (k, v) hm
    simp only [gt_iff_lt, decide_eq_false_iff_not, Nat.not_lt,
      Nat.le_zero] at h
    exact absurd h hv

theorem coinKey_length (c : CoinAttr) : c.key.length = 66 := by
  simp [CoinAttr.key, encHasher, toLE_length]

theorem encCoinAttr_length (c : CoinAttr) : (encCoinAttr c).length = 13 := by
  simp [encCoinAttr, encI64, toLE_length]

theorem encBest_length (b : Best) : (encBest b).length = 36 := by
  simp [encBest, encHasher, toLE_length]

theorem ne_of_length_ne {a b : Bytes} (h : a.length ≠ b.length) : a ≠ b :=
  fun he => h (he ▸ rfl)

/-- The forward operations appended by an index-writing loop, paired with
the inverse operations that undo them against the pre-link store `kv`. -/
def DeltaSpec (kv : Kv) (batch batch2 : IBatch)
    (Δ : List (KvOp × KvOp)) : Prop :=
  batch2.b = batch.b ++ Δ.map Prod.fst
  ∧ (∀ f0, batch.f = some f0 → batch2.f = some (f0 ++ Δ.map Prod.snd))
  ∧ ∀ p ∈ Δ, opKey p.1 = opKey p.2 ∧ undoes kv p.2 ∧ OpWF p.2
      ∧ (encOp p.2).length ≤ 84
      ∧ ((opKey p.1).length = 32 ∨ (opKey p.1).length = 66)

theorem deltaSpec_refl (kv : Kv) (batch : IBatch) :
    DeltaSpec kv batch batch [] := by
  refine ⟨by simp, fun f0 hf => by simp [hf], by simp⟩

theorem deltaSpec_trans (kv : Kv) (b1 b2 b3 : IBatch)
    (Δ1 Δ2 : List (KvOp × KvOp))
    (h1 : DeltaSpec kv b1 b2 Δ1) (h2 : DeltaSpec kv b2 b3 Δ2) :
    DeltaSpec kv b1 b3 (Δ1 ++ Δ2) := by
  obtain ⟨hb1, hf1, hp1⟩ := h1
  obtain ⟨hb2, hf2, hp2⟩ := h2
  refine ⟨?_, ?_, ?_⟩
  · rw [hb2, hb1, List.map_append, List.append_assoc]
  · intro f0 hf
    rw [hf2 (f0 ++ Δ1.map Prod.snd) (hf1 f0 hf), List.map_append,
      List.append_assoc]
  · intro p hp
    rcases List.mem_append.1 hp with hm | hm
    · exact hp1 p hm
    · exact hp2 p hm

theorem deltaSpec_put (kv : Kv) (batch : IBatch) (k v : Bytes)
    (hu : kvGet kv k = none) (hlen : k.length = 32 ∨ k.length = 66) :
    DeltaSpec kv batch (batch.put k v) [(.put k v, .del k)] := by
  refine ⟨by simp [IBatch.put], fun f0 hf => by simp [IBatch.put, hf], ?_⟩
  intro p hp
  rcases List.mem_singleton.1 hp with rfl
  refine ⟨rfl, hu, ?_, ?_, hlen⟩
  · show k.length < 2 ^ 16
    omega
  · show ((2 : Nat) :: (toLE 2 k.length ++ k)).length ≤ 84
    simp [toLE_length]
    omega

theorem deltaSpec_delSome (kv : Kv) (batch : IBatch) (k old : Bytes)
    (hu : kvGet kv k = some old) (hk : k.length = 66)
    (hold : old.length = 13) :
    DeltaSpec kv batch (batch.delSome k old) [(.del k, .put k old)] := by
  refine ⟨by simp [IBatch.delSome], fun f0 hf => by simp [IBatch.delSome, hf], ?_⟩
  intro p hp
  rcases List.mem_singleton.1 hp with rfl
  refine ⟨rfl, hu, ?_, ?_, Or.inr hk⟩
  · show k.length < 2 ^ 16 ∧ old.length < 2 ^ 16
    omega
  · show ((1 : Nat) :: (toLE 2 k.length ++ k ++ (toLE 2 old.length ++ old))).length ≤ 84
    simp [toLE_length]
    omega

theorem writeTxIndexOuts_delta (env : Env) (height : Nat) (txid : Hasher)
    (flags : Nat) (kv : Kv) (outs : List TxOut) (i : Nat)
    (batch batch2 : IBatch)
    (h : writeTxIndexOuts env height txid flags outs i batch = some batch2)
    (habs : ∀ o ∈ outs, ∀ cpk, o.get_address = some cpk →
      ∀ j, j < i + outs.length →
        kvGet kv (encHasher cpk ++ encHasher txid ++ toLE 2 j) = none) :
    ∃ Δ, DeltaSpec kv batch batch2 Δ ∧ Δ.length ≤ outs.length := by
  induction outs generalizing i batch with
  | nil =>
    rw [writeTxIndexOuts] at h
    simp only [Option.some.injEq] at h
    subst h
    exact ⟨[], deltaSpec_refl kv batch, by simp⟩
  | cons o os ih =>
    rw [writeTxIndexOuts] at h
    split at h
    · exact Option.noConfusion h
    · rename_i cpk haddr
      obtain ⟨Δ, hd, hlen⟩ := ih (i + 1) _ h (fun o2 hm cpk2 hc j hj =>
        habs o2 (List.mem_cons_of_mem _ hm) cpk2 hc j
          (by simp only [List.length_cons] at hj ⊢; omega))
      have hnone : kvGet kv
          (CoinAttr.key ⟨cpk, txid, i, o.value, flags, height⟩) = none := by
        have h0 := habs o (List.mem_cons_self _ _) cpk haddr i
          (by simp only [List.length_cons]; omega)
        simpa [CoinAttr.key] using h0
      have hstep := deltaSpec_put kv batch
        (CoinAttr.key ⟨cpk, txid, i, o.value, flags, height⟩)
        (encCoinAttr ⟨cpk, txid, i, o.value, flags, height⟩)
        hnone (Or.inr (coinKey_length _))
      refine ⟨(KvOp.put (CoinAttr.key ⟨cpk, txid, i, o.value, flags, height⟩)
            (encCoinAttr ⟨cpk, txid, i, o.value, flags, height⟩),
          KvOp.del (CoinAttr.key ⟨cpk, txid, i, o.value, flags, height⟩)) :: Δ,
        deltaSpec_trans kv _ _ _ _ _ hstep hd, ?_⟩
      simp only [List.length_cons]
      omega

theorem writeTxIndexIns_delta (env : Env) (st : ChainState) (height : Nat)
    (ins : List TxIn) (batch batch2 : IBatch)
    (h : writeTxIndexIns env st height ins batch = some batch2)
    (hcoins : ∀ inv ∈ ins, inv.is_coinbase = false →
      ∀ coin, get_txin_ref_coin env st inv = some coin →
        kvGet st.kv coin.key = some (encCoinAttr coin)) :
    ∃ Δ, DeltaSpec st.kv batch batch2 Δ ∧ Δ.length ≤ ins.length := by
  induction ins generalizing batch with
  | nil =>
    rw [writeTxIndexIns] at h
    simp only [Option.some.injEq] at h
    subst h
    exact ⟨[], deltaSpec_refl st.kv batch, by simp⟩
  | cons inv rest ih =>
    rw [writeTxIndexIns] at h
    split at h
    · rename_i hcb
      obtain ⟨Δ, hd, hlen⟩ := ih batch h
        (fun i2 hm => hcoins i2 (List.mem_cons_of_mem _ hm))
      exact ⟨Δ, hd, by simp; omega⟩
    · rename_i hcb
      split at h
      · exact Option.noConfusion h
      · rename_i coin hcoin
        split at h
        · exact Option.noConfusion h
        · rename_i hvalid
          obtain ⟨Δ, hd, hlen⟩ := ih _ h
            (fun i2 hm => hcoins i2 (List.mem_cons_of_mem _ hm))
          refine ⟨(.del coin.key, .put coin.key (encCoinAttr coin)) :: Δ,
            ?_, by simp; omega⟩
          have hval := hcoins inv (List.mem_cons_self _ _)
            (by simpa using hcb) coin hcoin
          have hstep := deltaSpec_delSome st.kv batch coin.key
            (encCoinAttr coin) hval (coinKey_length coin) (encCoinAttr_length coin)
          exact deltaSpec_trans st.kv _ _ _ _ _ hstep hd

theorem write_tx_index_delta (env : Env) (st : ChainState) (best : Best)
    (t : Tx) (batch batch2 : IBatch)
    (h : write_tx_index env st best t batch = some batch2)
    (hcoins : ∀ inv ∈ t.ins, inv.is_coinbase = false →
      ∀ coin, get_txin_ref_coin env st inv = some coin →
        kvGet st.kv coin.key = some (encCoinAttr coin))
    (habs : ∀ txid, Tx.id env t = some txid →
      ∀ o ∈ t.outs, ∀ cpk, o.get_address = some cpk →
      ∀ j, j < t.outs.length →
        kvGet st.kv (encHasher cpk ++ encHasher txid ++ toLE 2 j) = none) :
    ∃ Δ, DeltaSpec st.kv batch batch2 Δ
      ∧ Δ.length ≤ t.ins.length + t.outs.length := by
  unfold write_tx_index at h
  split at h
  · exact Option.noConfusion h
  · rename_i batch1 hins
    split at h
    · exact Option.noConfusion h
    · rename_i txid hid
      obtain ⟨Δ1, hd1, hl1⟩ := writeTxIndexIns_delta env st best.height
        t.ins batch batch1 hins hcoins
      obtain ⟨Δ2, hd2, hl2⟩ := writeTxIndexOuts_delta env best.height txid
        (if t.is_coinbase then COIN_ATTR_FLAGS_COINBASE else 0) st.kv
        t.outs 0 batch1 batch2 h
        (fun o hm cpk hc j hj => habs txid hid o hm cpk hc j (by simpa using hj))
      exact ⟨Δ1 ++ Δ2, deltaSpec_trans st.kv _ _ _ _ _ hd1 hd2,
        by simp; omega⟩

theorem linkTxs_delta (env : Env) (st : ChainState) (next : Best)
    (id : Hasher) (ts : List Tx) (i : Nat) (batch batch2 : IBatch)
    (h : linkTxs env st next id ts i batch = some batch2)
    (hvals : ∀ p ∈ st.kv, p.2.length ≠ 0)
    (hcoins : ∀ t ∈ ts, ∀ inv ∈ t.ins, inv.is_coinbase = false →
      ∀ coin, get_txin_ref_coin env st inv = some coin →
        kvGet st.kv coin.key = some (encCoinAttr coin))
    (habs : ∀ t ∈ ts, ∀ txid, Tx.id env t = some txid →
      ∀ o ∈ t.outs, ∀ cpk, o.get_address = some cpk →
      ∀ j, j < t.outs.length →
        kvGet st.kv (encHasher cpk ++ encHasher txid ++ toLE 2 j) = none) :
    ∃ Δ, DeltaSpec st.kv batch batch2 Δ
      ∧ Δ.length ≤ (ts.map fun t => 1 + t.ins.length + t.outs.length).sum := by
  induction ts generalizing i batch with
  | nil =>
    rw [linkTxs] at h
    simp only [Option.some.injEq] at h
    subst h
    exact ⟨[], deltaSpec_refl st.kv batch, by simp⟩
  | cons t0 ts ih =>
    rw [linkTxs] at h
    split at h
    · exact Option.noConfusion h
    · rename_i txid hid
      split at h
      · exact Option.noConfusion h
      · rename_i hfresh
        split at h
        · exact Option.noConfusion h
        · rename_i batch3 hw
          obtain ⟨Δ1, hd1, hl1⟩ := write_tx_index_delta env st next t0 _ batch3 hw
            (hcoins t0 (List.mem_cons_self _ _))
            (fun txid2 hid2 => habs t0 (List.mem_cons_self _ _) txid2 hid2)
          obtain ⟨Δ2, hd2, hl2⟩ := ih (i + 1) batch3 h
            (fun t ht => hcoins t (List.mem_cons_of_mem _ ht))
            (fun t ht => habs t (List.mem_cons_of_mem _ ht))
          have hstep := deltaSpec_put st.kv batch (encHasher txid)
            (encTxAttr ⟨id, i⟩)
            (kvGet_none_of_kvHas_false st.kv (encHasher txid) hvals
              (by simpa using hfresh))
            (Or.inl (by simp [encHasher, toLE_length]))
          refine ⟨[(.put (encHasher txid) (encTxAttr ⟨id, i⟩),
              .del (encHasher txid))] ++ (Δ1 ++ Δ2),
            deltaSpec_trans st.kv _ _ _ _ _ hstep
              (deltaSpec_trans st.kv _ _ _ _ _ hd1 hd2), ?_⟩
          simp only [List.map_cons, List.sum_cons, List.length_append,
            List.length_singleton]
          omega

theorem encOps_cons (op : KvOp) (l : List KvOp) :
    encOps (op :: l) = encOp op ++ encOps l := by
  simp [encOps]

theorem encOps_length_le (l : List KvOp) (c : Nat)
    (h : ∀ op ∈ l, (encOp op).length ≤ c) :
    (encOps l).length ≤ c * l.length := by
  induction l with
  | nil => simp [encOps]
  | cons op rest ih =>
    rw [encOps_cons]
    have h1 := h op (List.mem_cons_self _ _)
    have h2 := ih fun op2 hm => h op2 (List.mem_cons_of_mem _ hm)
    simp only [List.length_append, List.length_cons, Nat.mul_succ]
    omega

theorem encBlock_length_ne (b : Block) : (encBlock b).length ≠ 0 := by
  simp [encBlock, encHeader, encHasher, toLE_length]

/-- C1: link/pop round trip.  From a chain whose tip `top` is recorded
under `BEST_KEY`, a successful `link` of a block `b` makes `b` the tip at
height `top.height + 1`, and an immediately following `pop` succeeds,
returns `b`, and restores the key-value index content byte-for-byte.
The hypotheses are the store invariants: canonical sortedness, no empty
values, the spent-coin entries byte-identical to their reconstruction,
the created coin and height keys fresh, sizes in range, and the new block
id distinct from the configured genesis id. -/
theorem c1_link_pop_round_trip
    (env : Env) (conf : Config) (st : ChainState) (b : Block)
    (best : Best) (st2 : ChainState) (top : Best)
    (hs : KvSorted st.kv)
    (hvals : ∀ p ∈ st.kv, p.2.length ≠ 0)
    (htop : kvGet st.kv BEST_KEY = some (encBest top))
    (htopwf : BestWF top)
    (hh : top.height + 1 < 2 ^ 32)
    (hhk : kvGet st.kv (toLE 4 (top.height + 1)) = none)
    (hgen : b.id env ≠ conf.genesis)
    (hbwf : BlockWF b)
    (hblen : st.blk.data.length + (encBlock b).length < 2 ^ 32)
    (hrlen : st.rev.data.length + 61
      + 84 * ((b.txs.map fun t => 1 + t.ins.length + t.outs.length).sum)
      < 2 ^ 32)
    (hcoins : ∀ t ∈ b.txs, ∀ inv ∈ t.ins, inv.is_coinbase = false →
      match get_txin_ref_coin env st inv with
      | none => True
      | some coin => kvGet st.kv coin.key = some (encCoinAttr coin))
    (habs : ∀ t ∈ b.txs,
      match Tx.id env t with
      | none => True
      | some txid => ∀ o ∈ t.outs,
          match o.get_address with
          | none => True
          | some cpk => ∀ j < t.outs.length,
              kvGet st.kv (encHasher cpk ++ encHasher txid ++ toLE 2 j) = none)
    (hl : link env conf st b = some (best, st2)) :
    best = ⟨b.id env, top.height + 1⟩
    ∧ bestGet st2 = some best
    ∧ ∃ st3, pop env conf st2 = some (b, st3) ∧ st3.kv = st.kv := by
  obtain ⟨hcv, hhas, hpow, hbits, next, batch, hbest, hcommit⟩ :=
    link_some_parts env conf st b best st2 hl
  have hbg : bestGet st = some top := by
    unfold bestGet
    rw [htop]
    have hr := readBest_encBest top [] htopwf
    rw [List.append_nil] at hr
    simp only [hr]
  rcases linkBest_some_parts env conf st b (b.id env) (IBatch.new true)
      batch next hbest with
    ⟨top2, prevBlk, pa, htop2, hgetb, hprev, hnext, hbatch⟩ |
    ⟨hnone, h2, h3, h4⟩
  swap
  · rw [hbg] at hnone
    exact Option.noConfusion hnone
  rw [hbg] at htop2
  have htopeq : top = top2 := Option.some.inj htop2
  subst htopeq
  obtain ⟨hamt, batch1, blkLoc, blkStore, revLoc, revStore, htxs, hpush1,
    hpush2, hbesteq, hst2⟩ :=
    linkCommit_some_parts env conf st b next batch best st2 hcommit
  subst hbesteq
  subst hbatch
  -- the per-transaction delta
  have hcoins' : ∀ t ∈ b.txs, ∀ inv ∈ t.ins, inv.is_coinbase = false →
      ∀ coin, get_txin_ref_coin env st inv = some coin →
        kvGet st.kv coin.key = some (encCoinAttr coin) := by
    intro t ht inv hi hcb coin hc
    have h0 := hcoins t ht inv hi hcb
    rw [hc] at h0
    exact h0
  have habs' : ∀ t ∈ b.txs, ∀ txid, Tx.id env t = some txid →
      ∀ o ∈ t.outs, ∀ cpk, o.get_address = some cpk →
      ∀ j, j < t.outs.length →
        kvGet st.kv (encHasher cpk ++ encHasher txid ++ toLE 2 j) = none := by
    intro t ht txid hid o ho cpk hcpk j hj
    have h1 := habs t ht
    rw [hid] at h1
    have h2 := h1 o ho
    rw [hcpk] at h2
    exact h2 j hj
  obtain ⟨Δ, hΔ, hΔlen⟩ := linkTxs_delta env st best (b.id env) b.txs 0
    (((IBatch.new true).set BEST_KEY (encBest best) (encBest top)).put
      (toLE 4 best.height) (encHasher best.id))
    batch1 htxs hvals hcoins' habs'
  have hΔkeys : ∀ op ∈ Δ.map Prod.fst,
      (opKey op).length = 32 ∨ (opKey op).length = 66 := by
    intro op hm
    obtain ⟨p, hp, rfl⟩ := List.mem_map.1 hm
    exact (hΔ.2.2 p hp).2.2.2.2
  have hΔundo : ∀ op ∈ Δ.map Prod.snd, undoes st.kv op := by
    intro op hm
    obtain ⟨p, hp, rfl⟩ := List.mem_map.1 hm
    exact (hΔ.2.2 p hp).2.1
  have hΔwf : ∀ op ∈ Δ.map Prod.snd, OpWF op := by
    intro op hm
    obtain ⟨p, hp, rfl⟩ := List.mem_map.1 hm
    exact (hΔ.2.2 p hp).2.2.1
  have hΔenc : ∀ op ∈ Δ.map Prod.snd, (encOp op).length ≤ 84 := by
    intro op hm
    obtain ⟨p, hp, rfl⟩ := List.mem_map.1 hm
    exact (hΔ.2.2 p hp).2.2.2.1
  have hΔcover : ∀ op ∈ Δ.map Prod.fst,
      ∃ op2 ∈ Δ.map Prod.snd, opKey op2 = opKey op := by
    intro op hm
    obtain ⟨p, hp, rfl⟩ := List.mem_map.1 hm
    exact ⟨p.2, List.mem_map_of_mem _ hp, ((hΔ.2.2 p hp).1).symm⟩
  -- the concrete forward and inverse operation lists
  have hb1b : batch1.b = KvOp.put BEST_KEY (encBest best)
      :: KvOp.put (toLE 4 best.height) (encHasher best.id)
      :: Δ.map Prod.fst := by
    have h0 := hΔ.1
    simp only [IBatch.new, IBatch.set, IBatch.put, List.nil_append,
      List.cons_append, List.singleton_append] at h0
    simpa using h0
  have hb1f : batch1.f = some (KvOp.put BEST_KEY (encBest top)
      :: KvOp.del (toLE 4 best.height)
      :: Δ.map Prod.snd) := by
    have h0 := hΔ.2.1 [KvOp.put BEST_KEY (encBest top),
      KvOp.del (toLE 4 best.height)]
      (by simp [IBatch.new, IBatch.set, IBatch.put])
    simpa using h0
  have hheight : best.height = top.height + 1 := by
    rw [hnext]
    rfl
  have hBK : BEST_KEY.length = 13 := by decide
  have hkBK : toLE 4 best.height ≠ BEST_KEY :=
    ne_of_length_ne (by rw [toLE_length, hBK]; omega)
  have hidBK : encHasher (b.id env) ≠ BEST_KEY :=
    ne_of_length_ne (by rw [hBK]; simp [encHasher, toLE_length])
  -- the committed forward list
  have hfwd : (batch1.put (encHasher (b.id env))
        (encBlkAttr ⟨b.header, best.height, blkLoc, revLoc⟩)).b
      = KvOp.put BEST_KEY (encBest best)
        :: KvOp.put (toLE 4 best.height) (encHasher best.id)
        :: (Δ.map Prod.fst ++ [KvOp.put (encHasher (b.id env))
          (encBlkAttr ⟨b.header, best.height, blkLoc, revLoc⟩)]) := by
    simp [IBatch.put, hb1b]
  have hkv2 : st2.kv = applyOps st.kv
      (KvOp.put BEST_KEY (encBest best)
        :: KvOp.put (toLE 4 best.height) (encHasher best.id)
        :: (Δ.map Prod.fst ++ [KvOp.put (encHasher (b.id env))
          (encBlkAttr ⟨b.header, best.height, blkLoc, revLoc⟩)])) := by
    rw [hst2]
    exact congrArg (applyOps st.kv) hfwd
  -- BEST_KEY after commit
  have htailBK : (KvOp.put (toLE 4 best.height) (encHasher best.id)
        :: (Δ.map Prod.fst ++ [KvOp.put (encHasher (b.id env))
          (encBlkAttr ⟨b.header, best.height, blkLoc, revLoc⟩)])).filter
        (fun op => opKey op = BEST_KEY) = [] := by
    rw [List.filter_eq_nil_iff]
    intro op hm
    simp only [decide_eq_true_eq]
    rcases List.mem_cons.1 hm with rfl | hm2
    · exact hkBK
    · rcases List.mem_append.1 hm2 with hm3 | hm3
      · have hlen := hΔkeys op hm3
        intro he
        rw [he, hBK] at hlen
        omega
      · rcases List.mem_singleton.1 hm3 with rfl
        exact hidBK
  have hgBK : kvGet st2.kv BEST_KEY = some (encBest best) := by
    rw [hkv2, kvGet_applyOps st.kv _ BEST_KEY hs, List.filter_cons,
      if_pos (by simp [opKey]), htailBK]
    rfl
  have hwfbest : BestWF best := by
    refine ⟨?_, by omega⟩
    rw [hnext]
    exact env.Hlt _
  have hbg2 : bestGet st2 = some best := by
    unfold bestGet
    rw [hgBK]
    have hr := readBest_encBest best [] hwfbest
    rw [List.append_nil] at hr
    simp only [hr]
  -- the block attribute entry after commit
  have hgid : kvGet st2.kv (encHasher (b.id env))
      = some (encBlkAttr ⟨b.header, best.height, blkLoc, revLoc⟩) := by
    rw [hkv2, kvGet_applyOps st.kv _ _ hs]
    rw [show (KvOp.put BEST_KEY (encBest best)
        :: KvOp.put (toLE 4 best.height) (encHasher best.id)
        :: (Δ.map Prod.fst ++ [KvOp.put (encHasher (b.id env))
          (encBlkAttr ⟨b.header, best.height, blkLoc, revLoc⟩)]))
      = (KvOp.put BEST_KEY (encBest best)
        :: KvOp.put (toLE 4 best.height) (encHasher best.id)
        :: Δ.map Prod.fst) ++ [KvOp.put (encHasher (b.id env))
          (encBlkAttr ⟨b.header, best.height, blkLoc, revLoc⟩)] from by simp]
    rw [List.filter_append,
      show ([KvOp.put (encHasher (b.id env))
          (encBlkAttr ⟨b.header, best.height, blkLoc, revLoc⟩)].filter
          (fun op => opKey op = encHasher (b.id env)))
        = [KvOp.put (encHasher (b.id env))
          (encBlkAttr ⟨b.header, best.height, blkLoc, revLoc⟩)] from
        by simp [opKey],
      List.getLast?_append_of_ne_nil _ (by simp)]
    rfl
  -- concretize the two segment pushes
  have hpush1' := hpush1
  rw [Store.push, if_neg (encBlock_length_ne b)] at hpush1'
  simp only [Option.some.injEq, Prod.mk.injEq] at hpush1'
  obtain ⟨hblkLoc, hblkStore⟩ := hpush1'
  have hpush2' := hpush2
  rw [Store.push] at hpush2'
  by_cases hrev0 : batch1.reverse.length = 0
  · rw [if_pos hrev0] at hpush2'
    exact Option.noConfusion hpush2'
  rw [if_neg hrev0] at hpush2'
  simp only [Option.some.injEq, Prod.mk.injEq] at hpush2'
  obtain ⟨hrevLoc, hrevStore⟩ := hpush2'
  -- the inverse byte stream and its parse
  have hrevwb : batch1.reverse
      = encOps (KvOp.put BEST_KEY (encBest top)
        :: KvOp.del (toLE 4 best.height)
        :: Δ.map Prod.snd) := by
    rw [IBatch.reverse, hb1f]
    rfl
  have hrevlen : batch1.reverse.length
      ≤ 61 + 84 * ((b.txs.map fun t => 1 + t.ins.length + t.outs.length).sum) := by
    rw [hrevwb, encOps_cons, encOps_cons]
    have h1 : (encOp (KvOp.put BEST_KEY (encBest top))).length = 54 := by
      show ((1 : Nat) :: (toLE 2 BEST_KEY.length ++ BEST_KEY
        ++ (toLE 2 (encBest top).length ++ encBest top))).length = 54
      simp [toLE_length, hBK, encBest_length]
    have h2 : (encOp (KvOp.del (toLE 4 best.height))).length = 7 := by
      show ((2 : Nat) :: (toLE 2 (toLE 4 best.height).length
        ++ toLE 4 best.height)).length = 7
      simp [toLE_length]
    have h3 := encOps_length_le (Δ.map Prod.snd) 84 hΔenc
    have h4 : (Δ.map Prod.snd).length = Δ.length := List.length_map _ _
    simp only [List.length_append, h1, h2]
    rw [h4] at h3
    omega
  have hwfattr : BlkAttrWF ⟨b.header, best.height, blkLoc, revLoc⟩ := by
    refine ⟨hbwf.1, ?_, ?_, ?_⟩
    · show best.height < 2 ^ 32
      omega
    · rw [← hblkLoc]
      refine ⟨?_, ?_, ?_⟩
      · show (0 : Nat) < 2 ^ 32
        norm_num
      · show st.blk.data.length < 2 ^ 32
        omega
      · show (encBlock b).length < 2 ^ 32
        omega
    · rw [← hrevLoc]
      refine ⟨?_, ?_, ?_⟩
      · show (0 : Nat) < 2 ^ 32
        norm_num
      · show st.rev.data.length < 2 ^ 32
        omega
      · show batch1.reverse.length < 2 ^ 32
        omega
  -- walk pop
  have hkeyid : encHasher best.id = encHasher (b.id env) := by
    rw [hnext]
  have hgetattr2 : getBlkAttr st2 (encHasher best.id)
      = some ⟨b.header, best.height, blkLoc, revLoc⟩ := by
    unfold getBlkAttr
    rw [hkeyid, hgid]
    have hr := readBlkAttr_encBlkAttr ⟨b.header, best.height, blkLoc, revLoc⟩
      [] hwfattr
    rw [List.append_nil] at hr
    simp only [hr]
  have hpull1 : st2.blk.pull blkLoc = some (encBlock b) := by
    rw [hst2]
    show blkStore.pull blkLoc = _
    exact store_pull_push st.blk blkStore (encBlock b) blkLoc hpush1
  have hreadblk : readBlock (encBlock b) = some (b, []) := by
    have hr := readBlock_encBlock b [] hbwf
    rw [List.append_nil] at hr
    exact hr
  have hpull2 : st2.rev.pull revLoc = some batch1.reverse := by
    rw [hst2]
    show revStore.pull revLoc = _
    exact store_pull_push st.rev revStore batch1.reverse revLoc hpush2
  have hreadops : readOps batch1.reverse
      = some (KvOp.put BEST_KEY (encBest top)
        :: KvOp.del (toLE 4 best.height)
        :: Δ.map Prod.snd) := by
    rw [hrevwb]
    apply readOps_encOps
    intro op hm
    rcases List.mem_cons.1 hm with rfl | hm2
    · exact ⟨by rw [hBK]; norm_num, by rw [encBest_length]; norm_num⟩
    · rcases List.mem_cons.1 hm2 with rfl | hm3
      · show (toLE 4 best.height).length < 2 ^ 16
        rw [toLE_length]
        norm_num
      · exact hΔwf op hm3
  have hgne : ¬ (best.id = conf.genesis) := by
    rw [hnext]
    exact hgen
  have hpop : pop env conf st2 = some (b,
      { st2 with kv := applyOps st2.kv ((KvOp.put BEST_KEY (encBest top) :: KvOp.del (toLE 4 best.height) :: Δ.map Prod.snd) ++ [KvOp.del (encHasher best.id)]) }) := by
    simp only [pop, hbg2, eq_false hgne, if_false, hgetattr2, hpull1,
      hreadblk, hpull2, hreadops]
  -- the restoration
  have hrestore : applyOps st2.kv
      ((KvOp.put BEST_KEY (encBest top)
        :: KvOp.del (toLE 4 best.height)
        :: Δ.map Prod.snd) ++ [KvOp.del (encHasher best.id)]) = st.kv := by
    rw [hkv2, ← applyOps_append]
    apply applyOps_restore st.kv hs
    · intro op hm
      rcases List.mem_cons.1 hm with rfl | hm2
      · exact ⟨KvOp.put BEST_KEY (encBest top), List.mem_append_left _
          (List.mem_cons_self _ _), rfl⟩
      · rcases List.mem_cons.1 hm2 with rfl | hm3
        · exact ⟨KvOp.del (toLE 4 best.height), List.mem_append_left _
            (List.mem_cons_of_mem _ (List.mem_cons_self _ _)), rfl⟩
        · rcases List.mem_append.1 hm3 with hm4 | hm4
          · obtain ⟨op2, hop2, hkey⟩ := hΔcover op hm4
            exact ⟨op2, List.mem_append_left _
              (List.mem_cons_of_mem _ (List.mem_cons_of_mem _ hop2)), hkey⟩
          · rcases List.mem_singleton.1 hm4 with rfl
            refine ⟨KvOp.del (encHasher best.id), List.mem_append_right _
              (List.mem_singleton.2 rfl), ?_⟩
            show encHasher best.id = encHasher (b.id env)
            exact hkeyid
    · intro op hm
      rcases List.mem_append.1 hm with hm2 | hm2
      · rcases List.mem_cons.1 hm2 with rfl | hm3
        · exact htop
        · rcases List.mem_cons.1 hm3 with rfl | hm4
          · show kvGet st.kv (toLE 4 best.height) = none
            rw [hheight]
            exact hhk
          · exact hΔundo op hm4
      · rcases List.mem_singleton.1 hm2 with rfl
        show kvGet st.kv (encHasher best.id) = none
        rw [hkeyid]
        exact kvGet_none_of_kvHas_false st.kv _ hvals hhas
  refine ⟨?_, hbg2, _, hpop, hrestore⟩
  rw [hnext]
  rfl

/-! ## The coinbase monetary bound (C6) -/

/-- The subsidy formula as the spec states it:
`(50 * COIN) >> (h / halving)` while `h / halving < 64`, else 0. -/
def subsidySpec (halving h : Nat) : Int :=
  if h / halving < 64 then 50 * COIN / 2 ^ (h / halving) else 0

/-- The claim-side "input value sum" of a transaction: the sum of the
values of the outputs referenced by its non-coinbase inputs. -/
def txRefOutSum (st : ChainState) : List TxIn → Int → Option Int
  | [], acc => some acc
  | inv :: rest, acc =>
    if inv.is_coinbase then txRefOutSum st rest acc
    else
      match get_txin_ref_txout st inv with
      | none => none
      | some outv => txRefOutSum st rest (acc + outv.value)

theorem computeReward_subsidy (halving h : Nat) :
    computeReward halving h = subsidySpec halving h := by
  unfold computeReward subsidySpec COIN
  by_cases hc : h / halving ≥ 64
  · rw [if_pos hc, if_neg (by omega)]
  · rw [if_neg hc, if_pos (by omega)]

theorem sumInsChecked_refSum (env : Env) (st : ChainState) (height : Nat)
    (ins : List TxIn) (acc s : Int)
    (h : sumInsChecked env st height ins acc = some s) :
    txRefOutSum st ins acc = some s := by
  induction ins generalizing acc with
  | nil =>
    rw [sumInsChecked] at h
    rw [txRefOutSum]
    exact h
  | cons inv rest ih =>
    rw [sumInsChecked] at h
    rw [txRefOutSum]
    by_cases hcb : inv.is_coinbase = true
    · rw [if_pos hcb] at h ⊢
      exact ih acc h
    · rw [if_neg hcb] at h ⊢
      rcases haddr : inv.get_address env with _ | addr <;>
        simp only [haddr] at h
      · exact Option.noConfusion h
      rcases houtv : get_txin_ref_txout st inv with _ | outv <;>
        simp only [houtv] at h ⊢
      · exact Option.noConfusion h
      rcases hoaddr : outv.get_address with _ | oaddr <;>
        simp only [hoaddr] at h
      · exact Option.noConfusion h
      by_cases hane : addr ≠ oaddr
      · rw [if_pos hane] at h
        exact Option.noConfusion h
      rw [if_neg hane] at h
      rcases hcoin : get_coin st addr inv.out inv.idx with _ | coin <;>
        simp only [hcoin] at h
      · exact Option.noConfusion h
      by_cases hcne : addr ≠ coin.cpk
      · rw [if_pos hcne] at h
        exact Option.noConfusion h
      rw [if_neg hcne] at h
      by_cases hvne : outv.value ≠ coin.value
      · rw [if_pos hvne] at h
        exact Option.noConfusion h
      rw [if_neg hvne] at h
      by_cases hvalid : ¬ coin.is_valid height = true
      · rw [if_pos hvalid] at h
        exact Option.noConfusion h
      rw [if_neg hvalid] at h
      have hv : outv.value = coin.value := not_not.1 hvne
      rw [hv]
      exact ih _ h

theorem sumOutsSplit_spec (iscb : Bool) (outs : List TxOut) (ofee cfee o c : Int)
    (h : sumOutsSplit iscb outs ofee cfee = some (o, c)) :
    (iscb = true → o = ofee ∧ c = cfee + (outs.map TxOut.value).sum)
    ∧ (iscb = false → o = ofee + (outs.map TxOut.value).sum ∧ c = cfee) := by
  induction outs generalizing ofee cfee with
  | nil =>
    rw [sumOutsSplit] at h
    simp only [Option.some.injEq, Prod.mk.injEq] at h
    obtain ⟨rfl, rfl⟩ := h
    constructor <;> intro <;> simp
  | cons ov os ih =>
    rw [sumOutsSplit] at h
    split at h
    · exact Option.noConfusion h
    · split at h
      · exact Option.noConfusion h
      · split at h
        · rename_i hcb
          have hs := ih ofee (cfee + ov.value) h
          refine ⟨fun hb => ?_, fun hb => ?_⟩
          · obtain ⟨h1, h2⟩ := hs.1 hb
            refine ⟨h1, ?_⟩
            rw [h2]
            simp only [List.map_cons, List.sum_cons]
            ring
          · rw [hb] at hcb
            exact absurd hcb (by simp)
        · rename_i hcb
          have hs := ih (ofee + ov.value) cfee h
          refine ⟨fun hb => ?_, fun hb => ?_⟩
          · rw [hb] at hcb
            exact absurd rfl hcb
          · obtain ⟨h1, h2⟩ := hs.2 hb
            refine ⟨?_, h2⟩
            rw [h1]
            simp only [List.map_cons, List.sum_cons]
            ring

theorem check_tx_amount_spec (env : Env) (st : ChainState) (height : Nat)
    (t : Tx) (tf cf : Int)
    (h : check_tx_amount env st height t = some (tf, cf))
    (hone : t.is_coinbase = true → t.ins.length = 1) :
    (t.is_coinbase = true → tf = 0 ∧ cf = (t.outs.map TxOut.value).sum)
    ∧ (t.is_coinbase = false → cf = 0
        ∧ ∃ s, txRefOutSum st t.ins 0 = some s
          ∧ tf = s - (t.outs.map TxOut.value).sum) := by
  unfold check_tx_amount at h
  rcases hins : sumInsChecked env st height t.ins 0 with _ | ifee <;>
    simp only [hins] at h
  · exact Option.noConfusion h
  rcases hsplit : sumOutsSplit t.is_coinbase t.outs 0 0 with _ | ⟨ofee, cfee⟩ <;>
    simp only [hsplit] at h
  · exact Option.noConfusion h
  by_cases hg1 : ¬ is_valid_amount ifee = true ∨ ¬ is_valid_amount ofee = true
  · rw [if_pos hg1] at h
    exact Option.noConfusion h
  rw [if_neg hg1] at h
  by_cases hg2 : ofee > ifee
  · rw [if_pos hg2] at h
    exact Option.noConfusion h
  rw [if_neg hg2] at h
  by_cases hg3 : ¬ is_valid_amount (ifee - ofee) = true
  · rw [if_pos hg3] at h
    exact Option.noConfusion h
  rw [if_neg hg3] at h
  by_cases hg4 : ¬ is_valid_amount cfee = true
  · rw [if_pos hg4] at h
    exact Option.noConfusion h
  rw [if_neg hg4] at h
  simp only [Option.some.injEq, Prod.mk.injEq] at h
  obtain ⟨htf, hcf⟩ := h
  have hsp := sumOutsSplit_spec t.is_coinbase t.outs 0 0 ofee cfee hsplit
  refine ⟨fun hb => ?_, fun hb => ?_⟩
  · obtain ⟨ho, hc⟩ := hsp.1 hb
    have hlen := hone hb
    have hifee : ifee = 0 := by
      rcases hti : t.ins with _ | ⟨i0, rest⟩
      · rw [hti] at hlen
        simp at hlen
      · rcases hrest : rest with _ | ⟨i1, rest2⟩
        · have hicb : i0.is_coinbase = true := by
            unfold Tx.is_coinbase at hb
            rw [hti] at hb
            exact hb
          rw [hti, hrest] at hins
          rw [sumInsChecked, if_pos hicb, sumInsChecked] at hins
          exact (Option.some.inj hins).symm
        · rw [hti, hrest] at hlen
          simp at hlen
    refine ⟨?_, ?_⟩
    · rw [← htf, hifee, ho]
      ring
    · rw [← hcf, hc]
      simp
  · obtain ⟨ho, hc⟩ := hsp.2 hb
    refine ⟨by rw [← hcf, hc], ifee,
      sumInsChecked_refSum env st height t.ins 0 ifee hins, ?_⟩
    rw [← htf, ho]
    ring

theorem checkBlockTxs_spec (env : Env) (st : ChainState) (height : Nat)
    (ts : List Tx) (tfee cfee T C : Int)
    (h : checkBlockTxs env st height ts tfee cfee = some (T, C))
    (hone : ∀ t ∈ ts, t.is_coinbase = true → t.ins.length = 1) :
    ∃ fees : List Int,
      List.Forall₂ (fun t f =>
        (t.is_coinbase = true → f = 0)
        ∧ (t.is_coinbase = false →
          ∃ s, txRefOutSum st t.ins 0 = some s
            ∧ f = s - (t.outs.map TxOut.value).sum)) ts fees
      ∧ T = tfee + fees.sum
      ∧ C = cfee + ((ts.filter Tx.is_coinbase).map
          fun t => (t.outs.map TxOut.value).sum).sum := by
  induction ts generalizing tfee cfee with
  | nil =>
    rw [checkBlockTxs] at h
    simp only [Option.some.injEq, Prod.mk.injEq] at h
    obtain ⟨rfl, rfl⟩ := h
    exact ⟨[], List.Forall₂.nil, by simp, by simp⟩
  | cons t ts ih =>
    rw [checkBlockTxs] at h
    rcases hsign : check_tx_sign env st t with _ | u <;>
      simp only [hsign] at h
    · exact Option.noConfusion h
    rcases hamt : check_tx_amount env st height t with _ | ⟨tfv, cfv⟩ <;>
      simp only [hamt] at h
    · exact Option.noConfusion h
    by_cases hg1 : ¬ is_valid_amount (tfee + tfv) = true
    · rw [if_pos hg1] at h
      exact Option.noConfusion h
    rw [if_neg hg1] at h
    by_cases hg2 : ¬ is_valid_amount (cfee + cfv) = true
    · rw [if_pos hg2] at h
      exact Option.noConfusion h
    rw [if_neg hg2] at h
    obtain ⟨fees, hfa, hT, hC⟩ := ih (tfee + tfv) (cfee + cfv) h
      (fun t2 hm => hone t2 (List.mem_cons_of_mem _ hm))
    have hsp := check_tx_amount_spec env st height t tfv cfv hamt
      (hone t (List.mem_cons_self _ _))
    cases hcb : t.is_coinbase with
    | true =>
      obtain ⟨htf, hcf⟩ := hsp.1 hcb
      refine ⟨0 :: fees, List.Forall₂.cons ?_ hfa, ?_, ?_⟩
      · refine ⟨fun _ => rfl, fun hb => ?_⟩
        rw [hcb] at hb
        cases hb
      · rw [hT, htf]
        simp only [List.sum_cons]
        ring
      · rw [hC, hcf, List.filter_cons, if_pos (by simp [hcb])]
        simp only [List.map_cons, List.sum_cons]
        ring
    | false =>
      obtain ⟨hcf, s, hsum, htf⟩ := hsp.2 hcb
      refine ⟨tfv :: fees, List.Forall₂.cons ?_ hfa, ?_, ?_⟩
      · refine ⟨fun hb => ?_, fun _ => ⟨s, hsum, htf⟩⟩
        rw [hcb] at hb
        cases hb
      · rw [hT]
        simp only [List.sum_cons]
        ring
      · rw [hC, hcf, List.filter_cons, if_neg (by simp [hcb])]
        ring

theorem tx_check_value_cb_one (env : Env) (t : Tx)
    (h : Tx.check_value env t = some ()) (hcb : t.is_coinbase = true) :
    t.ins.length = 1 := by
  unfold Tx.check_value at h
  split at h
  · exact Option.noConfusion h
  · rename_i hc
    by_contra hne
    exact hc ⟨hcb, hne⟩

theorem block_check_value_txs (env : Env) (b : Block)
    (h : Block.check_value env b = some ()) :
    ∀ t ∈ b.txs, Tx.check_value env t = some () := by
  unfold Block.check_value at h
  split at h
  · exact Option.noConfusion h
  · split at h
    · exact Option.noConfusion h
    · split at h
      · exact Option.noConfusion h
      · split at h
        · exact Option.noConfusion h
        · split at h
          · exact Option.noConfusion h
          · rename_i hrep
            split at h
            · exact Option.noConfusion h
            · rename_i hall
              intro t ht
              by_contra hne
              apply hall
              intro hforall
              have := hforall t ht
              exact hne this

/-- C6: coinbase monetary bound.  A block `link` accepts at height
`best.height` satisfies: the total output value of its coinbase
transactions is at most `subsidy(height)` plus the per-transaction fees,
where each non-coinbase transaction contributes its referenced input
value sum minus its output value sum and each coinbase transaction
contributes zero; and the code reward equals the spec subsidy formula
`(50 * COIN) >> (h / halving)`, zero from the 64th halving. -/
theorem c6_coinbase_monetary_bound (env : Env) (conf : Config)
    (st : ChainState) (b : Block) (best : Best) (st2 : ChainState)
    (hl : link env conf st b = some (best, st2)) :
    ∃ fees : List Int,
      List.Forall₂ (fun t f =>
        (t.is_coinbase = true → f = 0)
        ∧ (t.is_coinbase = false →
          ∃ s, txRefOutSum st t.ins 0 = some s
            ∧ f = s - (t.outs.map TxOut.value).sum)) b.txs fees
      ∧ ((b.txs.filter Tx.is_coinbase).map
          fun t => (t.outs.map TxOut.value).sum).sum
        ≤ subsidySpec conf.halving best.height + fees.sum
      ∧ conf.compute_reward best.height = subsidySpec conf.halving best.height := by
  obtain ⟨hcv, hhas, hpow, hbits, next, batch, hbest, hcommit⟩ :=
    link_some_parts env conf st b best st2 hl
  obtain ⟨hamt, _, _, _, _, _, _, _, _, hbe, _⟩ :=
    linkCommit_some_parts env conf st b next batch best st2 hcommit
  subst hbe
  unfold check_block_amount at hamt
  by_cases hg0 : ¬ is_valid_amount (conf.compute_reward best.height) = true
  · rw [if_pos hg0] at hamt
    exact Option.noConfusion hamt
  rw [if_neg hg0] at hamt
  rcases htxs : checkBlockTxs env st best.height b.txs 0 0 with _ | ⟨tfee, cfee⟩ <;>
    simp only [htxs] at hamt
  · exact Option.noConfusion hamt
  rw [if_neg hg0] at hamt
  by_cases hle : cfee > conf.compute_reward best.height + tfee
  · rw [if_pos hle] at hamt
    exact Option.noConfusion hamt
  have hone : ∀ t ∈ b.txs, t.is_coinbase = true → t.ins.length = 1 :=
    fun t ht hcb => tx_check_value_cb_one env t
      (block_check_value_txs env b hcv t ht) hcb
  obtain ⟨fees, hfa, hT, hC⟩ := checkBlockTxs_spec env st best.height
    b.txs 0 0 tfee cfee htxs hone
  have hcr : conf.compute_reward best.height
      = subsidySpec conf.halving best.height := by
    rw [Config.compute_reward]
    exact computeReward_subsidy _ _
  refine ⟨fees, hfa, ?_, hcr⟩
  have hle2 : cfee ≤ conf.compute_reward best.height + tfee := by
    omega
  rw [hT, hC, hcr] at hle2
  simp only [zero_add] at hle2
  exact hle2

/-- The tip after linking `wBlkB2`. -/
def wBestB2 : Best := ⟨9, 2⟩

def wAttrB2 : BlkAttr := ⟨wHdrB2, 2, ⟨0, 82, 181⟩, ⟨0, 0, 165⟩⟩

/-- The coin created by the coinbase output of `wBlkB2`. -/
def wCoinB2 : CoinAttr := ⟨2, 8, 0, 50000000, 1, 2⟩

/-- The inverse batch serialized into the undo segment by the link. -/
def wRevB2 : Bytes :=
  encOps [KvOp.put BEST_KEY (encBest ⟨6, 1⟩), KvOp.del (toLE 4 2),
    KvOp.del (encHasher 8), KvOp.del wCoinB2.key]

/-- The chain state after linking `wBlkB2` onto `wStB`. -/
def wStB2 : ChainState :=
  ⟨[(toLE 4 2, encHasher 9),
    (wCoinB2.key, encCoinAttr wCoinB2),
    (encHasher 6, encBlkAttr wAttrB1),
    (encHasher 8, encTxAttr ⟨9, 0⟩),
    (encHasher 9, encBlkAttr wAttrB2),
    (BEST_KEY, encBest wBestB2)],
   ⟨encBlock wBlkB1 ++ encBlock wBlkB2⟩, ⟨wRevB2⟩, wPoolB⟩

set_option maxRecDepth 1000000 in
theorem wlink_eval : link wEnvB wConfB wStB wBlkB2 = some (wBestB2, wStB2) := by
  decide

set_option maxRecDepth 1000000 in
/-- Concrete instantiation of the link/pop round trip on the two-block
chain: popping right after linking `wBlkB2` returns it and restores the
index content exactly. -/
theorem c1_link_pop_round_trip_witness :
    wBestB2 = ⟨wBlkB2.id wEnvB, 2⟩
    ∧ bestGet wStB2 = some wBestB2
    ∧ ∃ st3, pop wEnvB wConfB wStB2 = some (wBlkB2, st3) ∧ st3.kv = wStB.kv :=
  c1_link_pop_round_trip wEnvB wConfB wStB wBlkB2 wBestB2 wStB2 ⟨6, 1⟩
    (by unfold KvSorted; decide)
    (by decide)
    (by decide)
    (by unfold BestWF; decide)
    (by decide)
    (by decide)
    (by decide)
    (by unfold BlockWF HeaderWF TxWF TxInWF TxOutWF ScriptWF; decide)
    (by decide)
    (by decide)
    (by
      intro t ht inv hi hcb
      rcases List.mem_singleton.1 ht with rfl
      rcases List.mem_singleton.1 hi with rfl
      exact absurd hcb (by decide))
    (by
      intro t ht
      rcases List.mem_singleton.1 ht with rfl
      intro o ho
      rcases List.mem_singleton.1 ho with rfl
      intro j hj
      have hj0 : j = 0 := by
        have hlen : List.length wTxB2.outs = 1 := rfl
        omega
      subst hj0
      decide)
    wlink_eval

set_option maxRecDepth 1000000 in
/-- Concrete instantiation of the coinbase monetary bound on the linked
block `wBlkB2`. -/
theorem c6_coinbase_monetary_bound_witness :
    link wEnvB wConfB wStB wBlkB2 = some (wBestB2, wStB2)
    ∧ ∃ fees : List Int,
      List.Forall₂ (fun t f =>
        (t.is_coinbase = true → f = 0)
        ∧ (t.is_coinbase = false →
          ∃ s, txRefOutSum wStB t.ins 0 = some s
            ∧ f = s - (t.outs.map TxOut.value).sum)) wBlkB2.txs fees
      ∧ ((wBlkB2.txs.filter Tx.is_coinbase).map
          fun t => (t.outs.map TxOut.value).sum).sum
        ≤ subsidySpec wConfB.halving wBestB2.height + fees.sum
      ∧ wConfB.compute_reward wBestB2.height
        = subsidySpec wConfB.halving wBestB2.height :=
  ⟨wlink_eval, c6_coinbase_monetary_bound wEnvB wConfB wStB wBlkB2 wBestB2 wStB2
    wlink_eval⟩

set_option maxRecDepth 1000000 in
/-- C3: the mempool is not purged on link.  `link` never touches the
pool: on the concrete chain, linking `wBlkB2` succeeds while the pool
still holds the very transaction (id 8) the block confirmed — in the
by-id map and in the fee-ordered map — contradicting the claimed purge.
The comment-only purge site is `index.rs` line 1255. -/
theorem c3_mempool_purge_on_link :
    link wEnvB wConfB wStB wBlkB2 = some (wBestB2, wStB2)
    ∧ wStB2.pool = wStB.pool
    ∧ wTxB2 ∈ wBlkB2.txs
    ∧ Tx.id wEnvB wTxB2 = some 8
    ∧ assocGet wStB.pool.byid (encHasher 8) = some wTxB2
    ∧ assocGet wStB2.pool.byid (encHasher 8) = some wTxB2
    ∧ wTxB2 ∈ (wStB2.pool.byfee.map Prod.snd).flatten :=
  ⟨wlink_eval, by decide, by decide, by decide, by decide, by decide, by decide⟩

/-! ## Concrete data for the mempool remove claim (C4) -/

/-- Environment whose hash is the first byte of the input (bounded):
distinguishes transactions by their version byte. -/
def wEnvP : Env :=
  { H := fun bs => min (bs.headD 0) 255,
    Hlt := fun _ => lt_of_le_of_lt (min_le_right _ _) (by norm_num),
    accountAddr := fun _ => none,
    accountEncSign := fun _ => none,
    verifyFull := fun _ _ => none,
    now := 1700000000,
    maxBlockSize := 1000000 }

/-- A second pending transaction (id 2 under `wEnvP`). -/
def wTxD : Tx := ⟨2, [⟨0, 0, [0xFF, 1], 0⟩], []⟩

/-- A pool holding both transactions, sharing one fee bucket. -/
def wPoolC4 : TxPool :=
  ⟨[(encHasher 1, wTxCb), (encHasher 2, wTxD)], [(0, [wTxCb, wTxD])]⟩

/-- C4: `TxPool::remove` frame is inverted.  Removing id 1 returns the
transaction and deletes it from the by-id map, but the `retain` keeps
exactly the transactions whose id equals the removed id: the removed
transaction stays in the fee-ordered map and the other pending
transaction is dropped from it — the opposite of the claimed frame
(`index.rs` line 891: `tmp == id` instead of `tmp != id`). -/
theorem c4_mempool_remove_frame :
    Tx.id wEnvP wTxCb = some 1
    ∧ Tx.id wEnvP wTxD = some 2
    ∧ TxPool.remove wEnvP wPoolC4 1
      = some (wTxCb, ⟨[(encHasher 2, wTxD)], [(0, [wTxCb])]⟩) := by
  refine ⟨by decide, by decide, by decide⟩

/-! ## Concrete data for the retarget claim (C7) -/

/-- A configuration with retarget span 2 (every even height is a
boundary). -/
def wConfC7 : Config := ⟨0x7fffff * 2 ^ 232, 5, 14, 2, 210000, 1⟩

/-- A chain at tip height 1 whose next height 2 is a retarget boundary;
the height key 0 holds the 32-byte block id, as `link` stores it. -/
def wStC7 : ChainState :=
  ⟨[(toLE 4 0, encHasher 5),
    (encHasher 6, encBlkAttr wAttrB1),
    (BEST_KEY, encBest ⟨6, 1⟩)],
   ⟨encBlock wBlkB1⟩, ⟨[]⟩, TxPool.empty⟩

/-- A chain whose recorded tip is at height 0. -/
def wStH0 : ChainState :=
  ⟨[(BEST_KEY, encBest ⟨5, 0⟩)], ⟨[]⟩, ⟨[]⟩, TxPool.empty⟩

set_option maxRecDepth 1000000 in
/-- C7: retarget rule.  The empty-chain and height-0 branches return the
compact form of `pow_limit` and a non-boundary height returns the tip
bits, as claimed; but at a retarget boundary `next_bits` reads the
height key `next - pow_span`, whose stored value is the 32-byte block
id, and decodes it as a 108-byte `BlkAttr`, so it errors instead of
computing the retargeted bits: on a fully populated boundary state it
returns `none`. -/
theorem c7_retarget_rule :
    next_bits wConfC7 ⟨[], ⟨[]⟩, ⟨[]⟩, TxPool.empty⟩
      = some (compact wConfC7.pow_limit)
    ∧ next_bits wConfC7 wStH0 = some (compact wConfC7.pow_limit)
    ∧ next_bits wConfB wStB = some wHdrB1.bits
    ∧ bestGet wStC7 = some ⟨6, 1⟩
    ∧ Best.next ⟨6, 1⟩ % wConfC7.pow_span = 0
    ∧ kvGet wStC7.kv (toLE 4 0) = some (encHasher 5)
    ∧ next_bits wConfC7 wStC7 = none :=
  ⟨rfl, rfl, by decide, by decide, by decide, by decide, by decide⟩

end Btx
